import Mathlib

/-!
Verification of `rubik.c`.

A shallow embedding of the cube engine and of the input translator of
`src/rubik.c`, followed by the theorems settled about them.

Conventions of the embedding.

* A C `char` or `int` value is an `Int`; a character is its ASCII code
  (`'A'` is 65, `'\n'` is 10, the apostrophe is 39, `'-'` is 45).
* The one `int` that the code adds to without a bound, the accumulator
  `ST.times`, is kept in 32 bits with `int_wrap`; the other values stay far
  inside the range of their type.
* A C array of `char` is a `List Int`; a two-dimensional table is a
  `List (List Int)`.  `rd a i` is the read `a[(int) i]` and `wr a i v` the
  assignment `a[(int) i] = v`.  C leaves an access outside the array
  undefined: the embedding reads `0` there and ignores the write.
* A `void` function that updates arrays in place returns the updated arrays.
* The counters of the `do ... while (--n)` loops are started at a positive
  value by the code, so that the body runs exactly that many times.
-/

namespace Rubik

/-! ## Arrays -/

/-- The read `a[(int) i]` of a `char` array. -/
def rd (a : List Int) (i : Int) : Int :=
  match i with
  | Int.ofNat n => a.getD n 0
  | Int.negSucc _ => 0

/-- The assignment `a[(int) i] = v` on a `char` array. -/
def wr (a : List Int) (i : Int) (v : Int) : List Int :=
  match i with
  | Int.ofNat n => a.set n v
  | Int.negSucc _ => a

/-- The row `t[(int) i]` of a two-dimensional `char` table. -/
def row (t : List (List Int)) (i : Int) : List Int :=
  match i with
  | Int.ofNat n => t.getD n []
  | Int.negSucc _ => []

/-- Runs `body` exactly `n` times: the loop `do body while (--n)` entered
with a positive counter `n`. -/
def do_while : Nat → (α → α) → α → α
  | 0, _, s => s
  | n + 1, body, s => do_while n body (body s)

/-! ## Constants and geometry tables -/

def NFACES : Nat := 6
def EMPTY_COLOR : Int := -1
def NMINICUBES : Nat := 20
def NORIENTS : Nat := 24
def NROTATIONS : Nat := NFACES
def NMINICUBES_PER_FACE : Nat := 8

/-- Adjacent 4 faces of each face from 0 to 5, in clockwise order. -/
def ADJACENTS : List (List Int) :=
  [[1, 2, 4, 3],
   [0, 3, 5, 2],
   [0, 1, 5, 4],
   [0, 4, 5, 1],
   [0, 2, 5, 3],
   [1, 3, 4, 2]]

def OPPOSITES : List Int := [5, 4, 3, 2, 1, 0]

/-- Positions of the minicubes of each face, corners first and edges second. -/
def POSITIONS_BY_FACE : List (List Int) :=
  [[12, 14, 19, 17,   13, 16, 18, 15],
   [ 5, 17, 19,  7,    6, 10, 18, 11],
   [ 0, 12, 17,  5,    3,  8, 15, 10],
   [ 2,  7, 19, 14,    4, 11, 16,  9],
   [ 0,  2, 14, 12,    1,  9, 13,  8],
   [ 0,  5,  7,  2,    1,  3,  6,  4]]

/-- Color of the given face of the minicube located in the given position. -/
def init_color (face x y z : Int) : Int :=
  if face = 2 then (if x = 0 then face else EMPTY_COLOR)
  else if face = 4 then (if y = 0 then face else EMPTY_COLOR)
  else if face = 5 then (if z = 0 then face else EMPTY_COLOR)
  else if face = 3 then (if x = 2 then face else EMPTY_COLOR)
  else if face = 1 then (if y = 2 then face else EMPTY_COLOR)
  else if face = 0 then (if z = 2 then face else EMPTY_COLOR)
  else EMPTY_COLOR

/-- Number of coloured faces in the minicube located in the given position. -/
def count_minicube_colors (x y z : Int) : Nat :=
  (List.range NFACES).foldl
    (fun count (f : Nat) => if init_color f x y z ≠ EMPTY_COLOR then count + 1 else count) 0

/-- Colors of the faces of all external minicubes except the central ones,
in x,y,z order (modifying first the x, then the y and then the z): the rows
written into `ORIGCOLORS`, in the order of the counter `i`. -/
def init_original_minicube_colors : List (List Int) :=
  (List.range 3).foldl (fun acc (z : Nat) =>
    (List.range 3).foldl (fun acc (y : Nat) =>
      (List.range 3).foldl (fun acc (x : Nat) =>
        if count_minicube_colors x y z > 1 then
          acc ++ [(List.range NFACES).map (fun (f : Nat) => init_color f x y z)]
        else acc) acc) acc) []

/-- The table `ORIGCOLORS` after `init_original_minicube_colors`. -/
def ORIGCOLORS : List (List Int) := init_original_minicube_colors

/-- The inner loop of `find_minicube_position`: `found` stays 1 when the
coloured and empty faces of the two minicubes are the same faces. -/
def same_faces (origminicubecolors minicubecolors : List Int) : Bool :=
  (List.range NFACES).all (fun (f : Nat) =>
    if rd origminicubecolors f = EMPTY_COLOR then
      decide (rd minicubecolors f = EMPTY_COLOR)
    else decide (rd minicubecolors f ≠ EMPTY_COLOR))

/-- The outer loop of `find_minicube_position`, from row `i` on. -/
def find_minicube_position_from (minicubecolors : List Int) :
    List (List Int) → Int → Int
  | [], _ => -1
  | origminicubecolors :: rest, i =>
    if same_faces origminicubecolors minicubecolors then i
    else find_minicube_position_from minicubecolors rest (i + 1)

/-- Given the current colors of the faces of a minicube returns its position,
or -1. -/
def find_minicube_position (minicubecolors : List Int) : Int :=
  find_minicube_position_from minicubecolors ORIGCOLORS 0

/-- Each orientation of a minicube is defined by a new distribution of faces:
the rows written into `ORIENTATIONS`, in the order of the counter `i`. -/
def init_minicube_orientations : List (List Int) :=
  (List.range NFACES).foldl (fun acc (f : Nat) =>
    let adjacents := row ADJACENTS f
    (List.range 4).foldl (fun acc (a : Nat) =>
      acc ++ [[(f : Int),
               rd adjacents (Int.ofNat a),
               rd adjacents (Int.ofNat ((a + 1) % 4)),
               rd adjacents (Int.ofNat ((a + 3) % 4)),
               rd adjacents (Int.ofNat ((a + 2) % 4)),
               rd OPPOSITES f]]) acc) []

/-- The table `ORIENTATIONS` after `init_minicube_orientations`. -/
def ORIENTATIONS : List (List Int) := init_minicube_orientations

/-- Rotates a minicube clockwise from the given face. -/
def rotate_minicube (face : Int) (colors : List Int) : List Int :=
  let adjacents := row ADJACENTS face
  let aux := rd colors (rd adjacents 0)
  let colors := wr colors (rd adjacents 0) (rd colors (rd adjacents 3))
  let colors := wr colors (rd adjacents 3) (rd colors (rd adjacents 2))
  let colors := wr colors (rd adjacents 2) (rd colors (rd adjacents 1))
  wr colors (rd adjacents 1) aux

/-- The first `NFACES` entries of `orig`, written over those of `dest`. -/
def copy_orientation (dest orig : List Int) : List Int :=
  (List.range NFACES).foldl (fun dest (f : Nat) => wr dest f (rd orig f)) dest

/-- The inner loop of `find_orientation`: all six entries are equal. -/
def same_colors (colors searchedcolors : List Int) : Bool :=
  (List.range NFACES).all (fun (f : Nat) => decide (rd colors f = rd searchedcolors f))

/-- The outer loop of `find_orientation`, from row `i` on. -/
def find_orientation_from (searchedcolors : List Int) :
    List (List Int) → Int → Int
  | [], _ => -1
  | colors :: rest, i =>
    if same_colors colors searchedcolors then i
    else find_orientation_from searchedcolors rest (i + 1)

/-- Finds in the global table the index of an orientation given by its
colors, or -1. -/
def find_orientation (searchedcolors : List Int) : Int :=
  find_orientation_from searchedcolors ORIENTATIONS 0

/-- The transformations table knows the new orientation of a minicube given
the rotation applied to it and its previous orientation. -/
def init_minicube_transformations : List (List Int) :=
  (List.range NROTATIONS).map (fun (r : Nat) =>
    (List.range NORIENTS).map (fun (i : Nat) =>
      let colors := copy_orientation (List.replicate NFACES 0) (row ORIENTATIONS i)
      let colors := rotate_minicube r colors
      find_orientation colors))

/-- The table `TRANSFORMATIONS` after `init_minicube_transformations`. -/
def TRANSFORMATIONS : List (List Int) := init_minicube_transformations

/-- Assigns the colors of the minicube in the order of the given
orientation. -/
def apply_orientation (origminicubecolors orient : List Int) : List Int :=
  (List.range NFACES).map (fun (f : Nat) => rd origminicubecolors (rd orient f))

/-! ## Cube state -/

/-- The second loop of `init_cube_point` over the minicubes still to place:
`false` as soon as a minicube resolves to a position already taken. -/
def init_cube_point_loop (currentorients : List Int) :
    List Nat → List Int → Bool × List Int
  | [], minicubesbypos => (true, minicubesbypos)
  | i :: rest, minicubesbypos =>
    let minicubecolors :=
      apply_orientation (row ORIGCOLORS i) (row ORIENTATIONS (rd currentorients i))
    let pos := find_minicube_position minicubecolors
    if rd minicubesbypos pos ≠ -1 then (false, minicubesbypos)
    else init_cube_point_loop currentorients rest (wr minicubesbypos pos i)

/-- Saves the initial orientations and positions of the minicubes of the
cube, returning false if the given cube point has minicubes in the same
position.  The result is the returned flag, `currentorients` and
`minicubesbypos`; the first loop overwrites every entry of both arrays, so
that they do not depend on what the arrays held before the call. -/
def init_cube_point (initialpoint : List Int) : Bool × List Int × List Int :=
  let currentorients := (List.range NMINICUBES).map (fun (i : Nat) => rd initialpoint i - 65)
  let minicubesbypos := List.replicate NMINICUBES (-1 : Int)
  let r := init_cube_point_loop currentorients (List.range NMINICUBES) minicubesbypos
  (r.1, currentorients, r.2)

def move_minicubes (mcbypos posarr : List Int) : List Int :=
  let tmp := rd mcbypos (rd posarr 3)
  let mcbypos := wr mcbypos (rd posarr 3) (rd mcbypos (rd posarr 2))
  let mcbypos := wr mcbypos (rd posarr 2) (rd mcbypos (rd posarr 1))
  let mcbypos := wr mcbypos (rd posarr 1) (rd mcbypos (rd posarr 0))
  wr mcbypos (rd posarr 0) tmp

def move_minicubes_reverse (mcbypos posarr : List Int) : List Int :=
  let tmp := rd mcbypos (rd posarr 0)
  let mcbypos := wr mcbypos (rd posarr 0) (rd mcbypos (rd posarr 1))
  let mcbypos := wr mcbypos (rd posarr 1) (rd mcbypos (rd posarr 2))
  let mcbypos := wr mcbypos (rd posarr 2) (rd mcbypos (rd posarr 3))
  wr mcbypos (rd posarr 3) tmp

/-- Reduces any number of times that a face must be rotated to: -2,-1,0,1,2
(`%` of C truncates towards zero). -/
def reduce_times (times : Int) : Int :=
  let times := Int.tmod times 4
  if times = 3 then -1
  else if times = -3 then 1
  else times

/-- The last loop of `rotate_cube_face`: the minicube found at each of the
eight positions of the face gets its orientation transformed `t` times. -/
def rotate_orientations (transform posarr : List Int) (t : Nat)
    (currentorients minicubesbypos : List Int) : List Int :=
  (List.range NMINICUBES_PER_FACE).foldl (fun currentorients (p : Nat) =>
    let i := rd minicubesbypos (rd posarr p)
    do_while t (fun currentorients =>
      wr currentorients i (rd transform (rd currentorients i))) currentorients)
    currentorients

/-- Rotates a face a given number of times, negative to do it in reverse.
First changes the positions of the minicubes and then their orientations.
The result is `(currentorients, minicubesbypos)`. -/
def rotate_cube_face (face : Int) (times : Int)
    (currentorients minicubesbypos : List Int) : List Int × List Int :=
  if times = 0 then (currentorients, minicubesbypos)
  else
    let posarr := row POSITIONS_BY_FACE face
    if times > 0 then
      let t := times.toNat
      let minicubesbypos := do_while t (fun minicubesbypos =>
        move_minicubes (move_minicubes minicubesbypos posarr) (posarr.drop 4))
        minicubesbypos
      let transform := row TRANSFORMATIONS face
      (rotate_orientations transform posarr t currentorients minicubesbypos,
        minicubesbypos)
    else
      let t := (-times).toNat
      let minicubesbypos := do_while t (fun minicubesbypos =>
        move_minicubes_reverse (move_minicubes_reverse minicubesbypos posarr)
          (posarr.drop 4)) minicubesbypos
      let transform := row TRANSFORMATIONS (rd OPPOSITES face)
      (rotate_orientations transform posarr t currentorients minicubesbypos,
        minicubesbypos)

/-- The characters printed by `print_cube_point`: `'A'` plus the orientation
of each minicube. -/
def print_cube_point (currentorients : List Int) : List Int :=
  (List.range NMINICUBES).map (fun (i : Nat) => rd currentorients i + 65)

/-- Returns true if the argument has 20 uppercase letters in the range A-X.
The argument is the string without its terminating NUL. -/
def valid_cube_point_chars (arg : List Int) : Bool :=
  if arg.any (fun c => decide (c < 65 ∨ c > 65 + (NORIENTS : Int) - 1)) then false
  else if arg.length ≠ 20 then false
  else true

/-- The `isgraph` of the C library in the "C" locale: a printable character
other than the space. -/
def isgraph (c : Int) : Bool := decide (33 ≤ c ∧ c ≤ 126)

def MINUS : Int := 45
def APOS : Int := 39

/-- The `strchr` of the C library on the string `s` (given without its
terminating NUL): the offset of the first occurrence of `c`, where the
terminating NUL counts as part of the string, or `none` for `NULL`. -/
def strchr : List Int → Int → Option Nat
  | [], c => if c = 0 then some 0 else none
  | x :: s, c => if x = c then some 0 else (strchr s c).map (fun p => p + 1)

/-- Returns true if the argument has 6 printable ASCII characters not - or
the apostrophe, all different.  The argument is the string without its
terminating NUL. -/
def valid_color_chars (arg : List Int) : Bool :=
  if (List.range arg.length).any (fun (i : Nat) =>
      let c := rd arg i
      !isgraph c || decide (c = APOS) || decide (c = MINUS)
        || (match strchr arg c with
            | some p => decide (p < i)
            | none => false)) then false
  else if arg.length ≠ 6 then false
  else true

/-! ## Input translator -/

/-- External characters for the colors by default: `"123456"`. -/
def COLOR_CHARS_DEFAULT : List Int := [49, 50, 51, 52, 53, 54]

/-- The color of an external character, `COLOR_CHARS` being the string of
the six external characters. -/
def char_to_color (COLOR_CHARS : List Int) (c : Int) : Int :=
  match strchr COLOR_CHARS c with
  | some p => (p : Int)
  | none => EMPTY_COLOR

structure rubik_move_st where
  times : Int
  face : Int
deriving DecidableEq, Repr

/-- The state kept while reading the input of the program (the static `ST`). -/
structure rubik_input_state_st where
  pendingsign : Int
  times : Int
  lastchr : Int
  lastfacechr : Int
  pendingface : Int
  savedface : Int
  result : rubik_move_st
deriving DecidableEq, Repr

/-- Initializes the variable with the state of the program's input; the
field `result` is left as it was. -/
def init_input_state (ST : rubik_input_state_st) : rubik_input_state_st :=
  { ST with
    pendingface := EMPTY_COLOR, savedface := EMPTY_COLOR,
    lastchr := 0, lastfacechr := 0,
    pendingsign := 1,
    times := 0 }

/-- The value that a C `int` holds after the arithmetic result `x`: 32 bits in
two's complement.  C leaves the overflow of a signed `int` undefined; the
usual platforms wrap around, and the embedding follows them. -/
def int_wrap (x : Int) : Int := (x + 2147483648) % 4294967296 - 2147483648

def SAVE_FOUND_FACE : Nat := 1
def SAVE_PENDING_FACE : Nat := 2
def ROTATE_SAVED_FACE : Nat := 4

/-- The first half of `process_input_char`, up to `if (action)`: the state
and the value of `action` reached there. -/
def input_action (f : Int) (ST : rubik_input_state_st) (c : Int) :
    rubik_input_state_st × Nat :=
  if f ≠ EMPTY_COLOR then
    let action : Nat :=
      if ST.pendingface ≠ EMPTY_COLOR then
        (if ST.savedface ≠ EMPTY_COLOR ∧ ST.savedface ≠ ST.pendingface then
          0 ||| ROTATE_SAVED_FACE else 0) ||| SAVE_PENDING_FACE
      else 0
    ({ ST with lastfacechr := c }, action ||| SAVE_FOUND_FACE)
  else
    let r : rubik_input_state_st × Nat :=
      if c = APOS then
        (if ST.lastchr = ST.lastfacechr then { ST with pendingsign := -1 } else ST, 0)
      else if c = 10 then
        (ST,
          if ST.pendingface ≠ EMPTY_COLOR then
            (if ST.savedface ≠ EMPTY_COLOR ∧ ST.savedface ≠ ST.pendingface then
              0 ||| ROTATE_SAVED_FACE else 0) ||| SAVE_PENDING_FACE
          else if ST.savedface ≠ EMPTY_COLOR then 0 ||| ROTATE_SAVED_FACE
          else 0)
      else (ST, 0)
    ({ r.1 with lastfacechr := 0 }, r.2)

/-- The block run by `process_input_char` under `action & ROTATE_SAVED_FACE`. -/
def rotate_saved_face (ST : rubik_input_state_st) : rubik_input_state_st :=
  { ST with
    result := { face := ST.savedface, times := ST.times },
    savedface := EMPTY_COLOR,
    times := 0 }

/-- The block run by `process_input_char` under `action & SAVE_PENDING_FACE`;
`ST->times += ST->pendingsign` is an addition of `int`. -/
def save_pending_face (ST : rubik_input_state_st) : rubik_input_state_st :=
  let ST :=
    if ST.savedface ≠ ST.pendingface then { ST with savedface := ST.pendingface } else ST
  { ST with
    pendingface := EMPTY_COLOR,
    times := int_wrap (ST.times + ST.pendingsign),
    pendingsign := 1 }

/-- The block run by `process_input_char` under `action & SAVE_FOUND_FACE`. -/
def save_found_face (f : Int) (ST : rubik_input_state_st) : rubik_input_state_st :=
  let ST := { ST with pendingface := f }
  if ST.lastchr = MINUS then { ST with pendingsign := -1 } else ST

/-- Updates the input state and returns true if there is a move to apply:
the result is the new `ST` and the returned flag `hasresult`. -/
def process_input_char (COLOR_CHARS : List Int) (ST : rubik_input_state_st) (c : Int) :
    rubik_input_state_st × Bool :=
  let f := char_to_color COLOR_CHARS c
  let a := input_action f ST c
  let ST := a.1
  let action := a.2
  let r : rubik_input_state_st × Bool :=
    if action ≠ 0 then
      let r : rubik_input_state_st × Bool :=
        if action &&& ROTATE_SAVED_FACE ≠ 0 then (rotate_saved_face ST, true)
        else (ST, false)
      let ST := r.1
      let ST := if action &&& SAVE_PENDING_FACE ≠ 0 then save_pending_face ST else ST
      let ST := if action &&& SAVE_FOUND_FACE ≠ 0 then save_found_face f ST else ST
      (ST, r.2)
    else (ST, false)
  ({ r.1 with lastchr := c }, r.2)

/-- The moves a caller reads in `ST.result` while it feeds the characters
`cs` one at a time, as `main` does: one move for each call of
`process_input_char` that returns true.  The result is the last state and the
moves in order. -/
def emitted_moves (COLOR_CHARS : List Int) :
    rubik_input_state_st → List Int → rubik_input_state_st × List rubik_move_st
  | ST, [] => (ST, [])
  | ST, c :: cs =>
    let r := process_input_char COLOR_CHARS ST c
    let rest := emitted_moves COLOR_CHARS r.1 cs
    (rest.1, if r.2 then r.1.result :: rest.2 else rest.2)

/-! ## Vocabulary of the statements -/

/-- The solved layout of `minicubesbypos`: minicube `i` at position `i`. -/
def identity_positions : List Int := (List.range NMINICUBES).map Int.ofNat

/-- The solved layout of `currentorients`: orientation 0 (letter A) for every
minicube. -/
def solved_orients : List Int := List.replicate NMINICUBES 0

/-- The array `minicubesbypos` holds every minicube 0..19 exactly once. -/
def is_permutation (minicubesbypos : List Int) : Prop :=
  minicubesbypos.Perm identity_positions

instance (minicubesbypos : List Int) : Decidable (is_permutation minicubesbypos) := by
  unfold is_permutation; infer_instance

/-- The array `currentorients` has 20 entries, each an orientation 0..23. -/
def valid_orients (currentorients : List Int) : Prop :=
  currentorients.length = 20 ∧ ∀ o ∈ currentorients, 0 ≤ o ∧ o < 24

instance (currentorients : List Int) : Decidable (valid_orients currentorients) := by
  unfold valid_orients; infer_instance

/-- Where `rotate_cube_face face times` takes the content of each position:
the array it leaves in `minicubesbypos` when started on the solved layout. -/
def face_permutation (face times : Int) : List Int :=
  (rotate_cube_face face times [] identity_positions).2

/-- The minicubes found at the eight positions of a face. -/
def face_pieces (face : Int) (minicubesbypos : List Int) : List Int :=
  (row POSITIONS_BY_FACE face).map (rd minicubesbypos)

/-- The row of `TRANSFORMATIONS` that `rotate_cube_face` selects. -/
def face_transform (face times : Int) : List Int :=
  if times > 0 then row TRANSFORMATIONS face else row TRANSFORMATIONS (rd OPPOSITES face)

/-- The orientation reached from `o` by `t` lookups in `transform`. -/
def transform_times (transform : List Int) (t : Nat) (o : Int) : Int :=
  do_while t (rd transform) o

/-- The position to which minicube `i` resolves in `init_cube_point` when its
orientation is `o`. -/
def position_of (i : Int) (o : Int) : Int :=
  find_minicube_position (apply_orientation (row ORIGCOLORS i) (row ORIENTATIONS o))

/-- A sequence of calls `rotate_cube_face(face, times, ...)`, in order, on the
state `(currentorients, minicubesbypos)`. -/
def rotate_cube_faces : List (Int × Int) → List Int × List Int → List Int × List Int
  | [], s => s
  | (face, times) :: rest, s => rotate_cube_faces rest (rotate_cube_face face times s.1 s.2)

/-- The list `sigma` can stand for the content of `minicubesbypos` moved by
rotations of `face`: 20 positions, the eight of the face among themselves. -/
def face_preserving (face : Int) (sigma : List Int) : Prop :=
  sigma.length = 20 ∧ (∀ q ∈ sigma, 0 ≤ q ∧ q < 20) ∧
    ((row POSITIONS_BY_FACE face).map (rd sigma)).Perm (row POSITIONS_BY_FACE face)

instance (face : Int) (sigma : List Int) : Decidable (face_preserving face sigma) := by
  unfold face_preserving; infer_instance

/-- The state `s2` is the state `s1` with the positions moved as `sigma`
says and the orientation of each minicube of the face changed by `tau`. -/
def acts (face : Int) (sigma : List Int) (tau : Int → Int)
    (s1 s2 : List Int × List Int) : Prop :=
  s2.2 = sigma.map (rd s1.2) ∧ s2.1.length = 20 ∧
    ∀ k, rd s2.1 k = if k ∈ face_pieces face s1.2 then tau (rd s1.1 k) else rd s1.1 k

/-- The values of `position_of`, minicube by minicube: entry `o` of row `i`
is the position of minicube `i` in orientation `o`. -/
def POSITION_TABLE : List (List Int) :=
  [[0, 5, 7, 2, 2, 0, 5, 7, 14, 12, 17, 19, 0, 5, 7, 2, 12, 17, 19, 14, 14, 12, 17, 19],
   [1, 3, 6, 4, 1, 3, 6, 4, 9, 8, 10, 11, 8, 10, 11, 9, 13, 15, 18, 16, 13, 15, 18, 16],
   [2, 0, 5, 7, 0, 5, 7, 2, 2, 0, 5, 7, 12, 17, 19, 14, 14, 12, 17, 19, 12, 17, 19, 14],
   [3, 6, 4, 1, 9, 8, 10, 11, 13, 15, 18, 16, 1, 3, 6, 4, 8, 10, 11, 9, 16, 13, 15, 18],
   [4, 1, 3, 6, 8, 10, 11, 9, 1, 3, 6, 4, 13, 15, 18, 16, 9, 8, 10, 11, 15, 18, 16, 13],
   [5, 7, 2, 0, 14, 12, 17, 19, 12, 17, 19, 14, 2, 0, 5, 7, 0, 5, 7, 2, 19, 14, 12, 17],
   [6, 4, 1, 3, 13, 15, 18, 16, 8, 10, 11, 9, 9, 8, 10, 11, 1, 3, 6, 4, 18, 16, 13, 15],
   [7, 2, 0, 5, 12, 17, 19, 14, 0, 5, 7, 2, 14, 12, 17, 19, 2, 0, 5, 7, 17, 19, 14, 12],
   [8, 10, 11, 9, 4, 1, 3, 6, 16, 13, 15, 18, 3, 6, 4, 1, 15, 18, 16, 13, 9, 8, 10, 11],
   [9, 8, 10, 11, 3, 6, 4, 1, 4, 1, 3, 6, 15, 18, 16, 13, 16, 13, 15, 18, 8, 10, 11, 9],
   [10, 11, 9, 8, 16, 13, 15, 18, 15, 18, 16, 13, 4, 1, 3, 6, 3, 6, 4, 1, 11, 9, 8, 10],
   [11, 9, 8, 10, 15, 18, 16, 13, 3, 6, 4, 1, 16, 13, 15, 18, 4, 1, 3, 6, 10, 11, 9, 8],
   [12, 17, 19, 14, 7, 2, 0, 5, 19, 14, 12, 17, 5, 7, 2, 0, 17, 19, 14, 12, 2, 0, 5, 7],
   [13, 15, 18, 16, 6, 4, 1, 3, 11, 9, 8, 10, 10, 11, 9, 8, 18, 16, 13, 15, 1, 3, 6, 4],
   [14, 12, 17, 19, 5, 7, 2, 0, 7, 2, 0, 5, 17, 19, 14, 12, 19, 14, 12, 17, 0, 5, 7, 2],
   [15, 18, 16, 13, 11, 9, 8, 10, 18, 16, 13, 15, 6, 4, 1, 3, 10, 11, 9, 8, 4, 1, 3, 6],
   [16, 13, 15, 18, 10, 11, 9, 8, 6, 4, 1, 3, 18, 16, 13, 15, 11, 9, 8, 10, 3, 6, 4, 1],
   [17, 19, 14, 12, 19, 14, 12, 17, 17, 19, 14, 12, 7, 2, 0, 5, 5, 7, 2, 0, 7, 2, 0, 5],
   [18, 16, 13, 15, 18, 16, 13, 15, 10, 11, 9, 8, 11, 9, 8, 10, 6, 4, 1, 3, 6, 4, 1, 3],
   [19, 14, 12, 17, 17, 19, 14, 12, 5, 7, 2, 0, 19, 14, 12, 17, 7, 2, 0, 5, 5, 7, 2, 0]]

/-- Position/orientation consistency of a state: the orientations are valid,
`minicubesbypos` is a permutation, and each minicube `i` sits at the position
to which its orientation resolves. -/
def consistent (currentorients minicubesbypos : List Int) : Prop :=
  valid_orients currentorients ∧ is_permutation minicubesbypos ∧
    ∀ i : Nat, i < 20 → rd minicubesbypos (position_of i (rd currentorients i)) = i

instance (currentorients minicubesbypos : List Int) :
    Decidable (consistent currentorients minicubesbypos) := by
  unfold consistent; infer_instance

/-- The calls of a sequence are applicable: faces 0..5, counts -2..2. -/
def valid_moves (moves : List (Int × Int)) : Prop :=
  ∀ m ∈ moves, (0 ≤ m.1 ∧ m.1 < 6) ∧ (-2 ≤ m.2 ∧ m.2 ≤ 2)

instance (moves : List (Int × Int)) : Decidable (valid_moves moves) := by
  unfold valid_moves; infer_instance

/-- The initial position of the solved cube, "AAAAAAAAAAAAAAAAAAAA". -/
def solved_point : List Int := List.replicate 20 65

/-- The position string "BAAAAAAAAAAAAAAAAAAA": minicube 0 turned to the
position of minicube 5. -/
def clashing_point : List Int := 66 :: List.replicate 19 65

/-- The static `ST` before `init_input_state`: a static object starts with
every field zero. -/
def ST_static : rubik_input_state_st :=
  { pendingsign := 0, times := 0, lastchr := 0, lastfacechr := 0,
    pendingface := 0, savedface := 0, result := { times := 0, face := 0 } }

/-- The maximal runs of equal characters of `w`, in order: each character
with the length of its run. -/
def token_runs : List Int → List (Int × Int)
  | [] => []
  | c :: w =>
    match token_runs w with
    | [] => [(c, 1)]
    | (d, n) :: rest => if c = d then (c, n + 1) :: rest else (c, 1) :: (d, n) :: rest

/-- The move as `ST.result` holds it: the count as the `int` accumulator
leaves it. -/
def wrap_times (m : rubik_move_st) : rubik_move_st :=
  { m with times := int_wrap m.times }

/-- Puts a run of `n` turns of `face` in front of the moves `rs`: one more
move, or a longer first move when `rs` starts with the same face. -/
def prepend_run (face : Int) (n : Int) : List rubik_move_st → List rubik_move_st
  | [] => [{ times := n, face := face }]
  | r :: rs =>
    if r.face = face then { times := r.times + n, face := face } :: rs
    else { times := n, face := face } :: r :: rs

/-- The moves of the runs of equal faces of the tokens `w`, built from the
front: one move per maximal run, `times` the length of the run. -/
def run_length_moves (COLOR_CHARS : List Int) : List Int → List rubik_move_st
  | [] => []
  | c :: w => prepend_run (char_to_color COLOR_CHARS c) 1 (run_length_moves COLOR_CHARS w)

/-- The 27 cells of the 3×3×3 lattice as `(x, y, z)`, scanned with `x`
fastest, then `y`, then `z`. -/
def lattice_cells : List (Nat × Nat × Nat) :=
  (List.range 27).map (fun (n : Nat) => (n % 3, (n / 3) % 3, n / 9))

/-- The reference colorings as the specification words them: the colorings
of the lattice cells with 2 or 3 coloured faces, in scan order. -/
def reference_colorings : List (List Int) :=
  (lattice_cells.filter (fun c =>
      decide (count_minicube_colors c.1 c.2.1 c.2.2 = 2 ∨
        count_minicube_colors c.1 c.2.1 c.2.2 = 3))).map
    (fun c => (List.range NFACES).map (fun (f : Nat) => init_color f c.1 c.2.1 c.2.2))

/-- The position string printed after `rotate_cube_face(0, 1)` on the solved
cube, "AAAAAAAAAAAADDDDDDDD". -/
def turned_point : List Int := List.replicate 12 65 ++ List.replicate 8 68

/-- The move pair entered as "12": `rotate_cube_face(0, 1)` then
`rotate_cube_face(1, 1)`. -/
def move_pair_12 : List (Int × Int) := [(0, 1), (1, 1)]

/-- The state after `n` repetitions of the sequence `moves`. -/
def repeat_moves (moves : List (Int × Int)) :
    Nat → List Int × List Int → List Int × List Int
  | 0, s => s
  | n + 1, s => repeat_moves moves n (rotate_cube_faces moves s)

/-- Each of the first `n` repetitions of `moves` from `s` leaves
`currentorients` different from the solved layout, and the last one gives the
state `t`. -/
def stays_unsolved (moves : List (Int × Int)) :
    Nat → List Int × List Int → List Int × List Int → Bool
  | 0, s, t => decide (s = t)
  | n + 1, s, t =>
    decide ((rotate_cube_faces moves s).1 ≠ solved_orients) &&
      stays_unsolved moves n (rotate_cube_faces moves s) t

/-- Repetition `n + 1` of `moves` is the first to bring the solved state
back: the `n` before it leave `currentorients` different from the solved
layout, and that one gives the solved state. -/
def first_return (moves : List (Int × Int)) : Nat → List Int × List Int → Bool
  | 0, s => decide (rotate_cube_faces moves s = (solved_orients, identity_positions))
  | n + 1, s =>
    decide ((rotate_cube_faces moves s).1 ≠ solved_orients) &&
      first_return moves n (rotate_cube_faces moves s)

/-- The states of the solved cube after 0, 15, 30, ..., 90 repetitions of the
move pair "12", as `(currentorients, minicubesbypos)`. -/
def PAIR_12_CHECKPOINTS : List (List Int × List Int) :=
  [([0, 0, 0, 0, 0, 0, 0, 0, 0, 0, 0, 0, 0, 0, 0, 0, 0, 0, 0, 0],
    [0, 1, 2, 3, 4, 5, 6, 7, 8, 9, 10, 11, 12, 13, 14, 15, 16, 17, 18, 19]),
   ([0, 0, 0, 0, 0, 0, 9, 0, 0, 0, 9, 9, 0, 3, 0, 3, 5, 0, 3, 0],
    [0, 1, 2, 3, 4, 5, 11, 7, 8, 9, 6, 16, 12, 15, 14, 18, 13, 17, 10, 19]),
   ([0, 0, 0, 0, 0, 0, 20, 0, 0, 0, 8, 20, 0, 13, 0, 2, 21, 0, 2, 0],
    [0, 1, 2, 3, 4, 5, 16, 7, 8, 9, 11, 13, 12, 18, 14, 10, 15, 17, 6, 19]),
   ([0, 0, 0, 0, 0, 0, 23, 0, 0, 0, 11, 15, 0, 22, 0, 17, 19, 0, 1, 0],
    [0, 1, 2, 3, 4, 5, 13, 7, 8, 9, 16, 15, 12, 10, 14, 6, 18, 17, 11, 19]),
   ([0, 0, 0, 0, 0, 0, 22, 0, 0, 0, 10, 14, 0, 11, 0, 23, 3, 0, 9, 0],
    [0, 1, 2, 3, 4, 5, 15, 7, 8, 9, 13, 18, 12, 6, 14, 11, 10, 17, 16, 19]),
   ([0, 0, 0, 0, 0, 0, 21, 0, 0, 0, 20, 13, 0, 2, 0, 7, 2, 0, 20, 0],
    [0, 1, 2, 3, 4, 5, 18, 7, 8, 9, 15, 10, 12, 11, 14, 16, 6, 17, 13, 19]),
   ([0, 0, 0, 0, 0, 0, 15, 0, 0, 0, 15, 12, 0, 1, 0, 1, 1, 0, 15, 0],
    [0, 1, 2, 3, 4, 5, 10, 7, 8, 9, 18, 6, 12, 16, 14, 13, 11, 17, 15, 19])]

/-! ## Theorems -/

/-! ## Arrays -/

theorem rd_natCast (a : List Int) (n : Nat) : rd a (n : Int) = a.getD n 0 := rfl

theorem length_wr (a : List Int) (i v : Int) : (wr a i v).length = a.length := by
  cases i <;> simp [wr]

theorem rd_wr_same (a : List Int) (i v : Int) (h0 : 0 ≤ i) (h1 : i < a.length) :
    rd (wr a i v) i = v := by
  cases i with
  | ofNat n =>
    have hn : n < a.length := by
      have : (n : Int) < a.length := h1
      omega
    simp [rd, wr, List.getD_eq_getElem?_getD, hn]
  | negSucc n => exact absurd h0 (by simp [Int.negSucc_lt_zero])

theorem rd_wr_ne (a : List Int) (i k v : Int) (h : k ≠ i) : rd (wr a i v) k = rd a k := by
  cases i with
  | ofNat n =>
    cases k with
    | ofNat m =>
      have hnm : n ≠ m := by
        intro e
        exact h (by rw [e])
      simp [rd, wr, List.getD_eq_getElem?_getD, List.getElem?_set_ne hnm]
    | negSucc m => rfl
  | negSucc n => rfl

theorem ext_rd (a b : List Int) (hl : a.length = b.length)
    (h : ∀ k : Nat, k < a.length → rd a k = rd b k) : a = b := by
  apply List.ext_getElem hl
  intro n h1 h2
  have := h n h1
  simpa [rd_natCast, List.getD_eq_getElem?_getD, h1, h2] using this

theorem rd_map (l : List Int) (g : Int → Int) (j : Int) (h0 : 0 ≤ j) (h1 : j < l.length) :
    rd (l.map g) j = g (rd l j) := by
  cases j with
  | ofNat n =>
    have hn : n < l.length := by
      have : (n : Int) < l.length := h1
      omega
    simp [rd, List.getD_eq_getElem?_getD, hn]
  | negSucc n => exact absurd h0 (by simp [Int.negSucc_lt_zero])

theorem rd_mem (l : List Int) (j : Int) (h0 : 0 ≤ j) (h1 : j < l.length) : rd l j ∈ l := by
  cases j with
  | ofNat n =>
    have hn : n < l.length := by
      have : (n : Int) < l.length := h1
      omega
    simp [rd, List.getD_eq_getElem?_getD, hn]
  | negSucc n => exact absurd h0 (by simp [Int.negSucc_lt_zero])

theorem exists_rd_of_mem (l : List Int) (x : Int) (h : x ∈ l) :
    ∃ k : Nat, k < l.length ∧ rd l k = x := by
  obtain ⟨n, hn, e⟩ := List.getElem_of_mem h
  exact ⟨n, hn, by simp [rd_natCast, List.getD_eq_getElem?_getD, hn, e]⟩

theorem do_while_orient (tr : List Int) (i : Int) (h0 : 0 ≤ i) :
    ∀ (t : Nat) (co : List Int), i < co.length →
      (do_while t (fun c => wr c i (rd tr (rd c i))) co).length = co.length ∧
      rd (do_while t (fun c => wr c i (rd tr (rd c i))) co) i
        = transform_times tr t (rd co i) ∧
      ∀ k, k ≠ i → rd (do_while t (fun c => wr c i (rd tr (rd c i))) co) k = rd co k := by
  intro t
  induction t with
  | zero => intro co _; exact ⟨rfl, rfl, fun _ _ => rfl⟩
  | succ t ih =>
    intro co h1
    have hl := length_wr co i (rd tr (rd co i))
    obtain ⟨a, b, c⟩ := ih (wr co i (rd tr (rd co i))) (by rw [hl]; exact h1)
    refine ⟨?_, ?_, ?_⟩
    · show (do_while t _ (wr co i (rd tr (rd co i)))).length = _
      rw [a, hl]
    · show rd (do_while t _ (wr co i (rd tr (rd co i)))) i = _
      rw [b, rd_wr_same co i _ h0 h1]
      rfl
    · intro k hk
      show rd (do_while t _ (wr co i (rd tr (rd co i)))) k = _
      rw [c k hk, rd_wr_ne co i k _ hk]

theorem foldl_orient (tr : List Int) (t : Nat) :
    ∀ (L : List Int) (co : List Int), L.Nodup → (∀ i ∈ L, 0 ≤ i ∧ i < co.length) →
      (L.foldl (fun co i => do_while t (fun c => wr c i (rd tr (rd c i))) co) co).length
        = co.length ∧
      ∀ k, rd (L.foldl (fun co i => do_while t (fun c => wr c i (rd tr (rd c i))) co) co) k
        = if k ∈ L then transform_times tr t (rd co k) else rd co k := by
  intro L
  induction L with
  | nil => intro co _ _; exact ⟨rfl, fun k => by simp⟩
  | cons i L ih =>
    intro co hnd hr
    obtain ⟨hi0, hi1⟩ := hr i (List.mem_cons_self _ _)
    obtain ⟨a, b, c⟩ := do_while_orient tr i hi0 t co hi1
    have hnd2 := List.nodup_cons.mp hnd
    obtain ⟨d, e⟩ := ih (do_while t (fun c => wr c i (rd tr (rd c i))) co) hnd2.2
      (fun j hj => by rw [a]; exact hr j (List.mem_cons_of_mem _ hj))
    refine ⟨?_, ?_⟩
    · rw [List.foldl_cons, d, a]
    · intro k
      rw [List.foldl_cons, e k]
      by_cases hk : k = i
      · subst hk
        simp [hnd2.1, b]
      · have : (k ∈ i :: L) ↔ k ∈ L := by simp [hk]
        by_cases hkL : k ∈ L
        · simp [hkL, c k hk]
        · simp [hkL, hk, c k hk]

/-! ## Permutations of the positions -/

theorem is_permutation_length (mp : List Int) (h : is_permutation mp) : mp.length = 20 := by
  have := List.Perm.length_eq h
  simpa [identity_positions, NMINICUBES] using this

theorem is_permutation_nodup (mp : List Int) (h : is_permutation mp) : mp.Nodup :=
  (List.Perm.nodup_iff h).mpr (by decide)

theorem mem_identity_positions (x : Int) : x ∈ identity_positions ↔ 0 ≤ x ∧ x < 20 := by
  unfold identity_positions NMINICUBES
  constructor
  · intro h
    obtain ⟨n, hn, rfl⟩ := List.mem_map.mp h
    have := List.mem_range.mp hn
    constructor
    · exact Int.ofNat_nonneg n
    · show (n : Int) < 20
      omega
  · rintro ⟨h0, h1⟩
    refine List.mem_map.mpr ⟨x.toNat, List.mem_range.mpr (by omega), ?_⟩
    show (x.toNat : Int) = x
    omega

theorem is_permutation_range (mp : List Int) (h : is_permutation mp) :
    ∀ x ∈ mp, 0 ≤ x ∧ x < 20 := fun x hx =>
  (mem_identity_positions x).mp ((List.Perm.mem_iff h).mp hx)

theorem is_permutation_of_nodup (mp : List Int) (hl : mp.length = 20) (hn : mp.Nodup)
    (hr : ∀ x ∈ mp, 0 ≤ x ∧ x < 20) : is_permutation mp := by
  have hs : mp ⊆ identity_positions := fun x hx => (mem_identity_positions x).mpr (hr x hx)
  have hsp : List.Subperm mp identity_positions := List.subperm_of_subset hn hs
  exact hsp.perm_of_length_le (by simp [identity_positions, NMINICUBES, hl])

theorem rd_inj (l : List Int) (hn : l.Nodup) (x y : Int) (hx : 0 ≤ x ∧ x < l.length)
    (hy : 0 ≤ y ∧ y < l.length) (h : rd l x = rd l y) : x = y := by
  obtain ⟨n, rfl⟩ := Int.eq_ofNat_of_zero_le hx.1
  obtain ⟨m, rfl⟩ := Int.eq_ofNat_of_zero_le hy.1
  have hn1 : n < l.length := by omega
  have hm1 : m < l.length := by omega
  simp only [rd_natCast, List.getD_eq_getElem?_getD, List.getElem?_eq_getElem hn1,
    List.getElem?_eq_getElem hm1, Option.getD_some] at h
  have := (List.Nodup.getElem_inj_iff hn).mp h
  rw [this]

theorem nodup_map_rd (l idxs : List Int) (hn : l.Nodup) (hi : idxs.Nodup)
    (hr : ∀ j ∈ idxs, 0 ≤ j ∧ j < l.length) : (idxs.map (rd l)).Nodup :=
  List.Nodup.map_on (fun x hx y hy h => rd_inj l hn x y (hr x hx) (hr y hy) h) hi

theorem map_rd_identity (l : List Int) (h : l.length = 20) :
    identity_positions.map (rd l) = l := by
  apply ext_rd
  · simp [identity_positions, NMINICUBES, h]
  · intro k hk
    have hk2 : k < 20 := by simpa [identity_positions, NMINICUBES] using hk
    rw [rd_map _ _ _ (Int.ofNat_nonneg k) (by simp [identity_positions, NMINICUBES]; omega)]
    congr 1
    simp [identity_positions, NMINICUBES, rd_natCast, List.getD_eq_getElem?_getD, hk2]

/-! ## Facts of the tables -/

theorem row_positions_length (face : Int) (hf : 0 ≤ face ∧ face < 6) :
    (row POSITIONS_BY_FACE face).length = 8 := by
  obtain ⟨h0, h1⟩ := hf
  interval_cases face <;> rfl

theorem row_positions_nodup (face : Int) (hf : 0 ≤ face ∧ face < 6) :
    (row POSITIONS_BY_FACE face).Nodup := by
  obtain ⟨h0, h1⟩ := hf
  interval_cases face <;> decide

theorem row_positions_range (face : Int) (hf : 0 ≤ face ∧ face < 6) :
    ∀ q ∈ row POSITIONS_BY_FACE face, 0 ≤ q ∧ q < 20 := by
  obtain ⟨h0, h1⟩ := hf
  interval_cases face <;> decide

theorem face_permutation_perm (face times : Int) (hf : 0 ≤ face ∧ face < 6)
    (ht : -2 ≤ times ∧ times ≤ 2) : is_permutation (face_permutation face times) := by
  obtain ⟨h0, h1⟩ := hf
  obtain ⟨h2, h3⟩ := ht
  interval_cases face <;> interval_cases times <;> decide

theorem face_permutation_positions (face times : Int) (hf : 0 ≤ face ∧ face < 6)
    (ht : -2 ≤ times ∧ times ≤ 2) :
    ((row POSITIONS_BY_FACE face).map (rd (face_permutation face times))).Perm
      (row POSITIONS_BY_FACE face) := by
  obtain ⟨h0, h1⟩ := hf
  obtain ⟨h2, h3⟩ := ht
  interval_cases face <;> interval_cases times <;> decide

theorem face_permutation_fixes (face times : Int) (hf : 0 ≤ face ∧ face < 6)
    (ht : -2 ≤ times ∧ times ≤ 2) :
    ∀ q ∈ identity_positions, q ∉ row POSITIONS_BY_FACE face →
      rd (face_permutation face times) q = q := by
  obtain ⟨h0, h1⟩ := hf
  obtain ⟨h2, h3⟩ := ht
  interval_cases face <;> interval_cases times <;> decide

/-! ## What a rotation does -/

theorem cons_of_length_succ (l : List Int) (n : Nat) (h : l.length = n + 1) :
    ∃ a t, l = a :: t ∧ t.length = n := by
  cases l with
  | nil => simp at h
  | cons a t => exact ⟨a, t, rfl, by simpa using h⟩

theorem list4_cases (l : List Int) (n : Nat) (h : l.length = n + 4) :
    ∃ a0 a1 a2 a3 t, l = a0 :: a1 :: a2 :: a3 :: t ∧ t.length = n := by
  obtain ⟨a0, l0, rfl, h0⟩ := cons_of_length_succ l _ h
  obtain ⟨a1, l1, rfl, h1⟩ := cons_of_length_succ l0 _ h0
  obtain ⟨a2, l2, rfl, h2⟩ := cons_of_length_succ l1 _ h1
  obtain ⟨a3, l3, rfl, h3⟩ := cons_of_length_succ l2 _ h2
  exact ⟨a0, a1, a2, a3, l3, rfl, h3⟩

theorem list20_cases (l : List Int) (h : l.length = 20) :
    ∃ a0 a1 a2 a3 a4 a5 a6 a7 a8 a9 b0 b1 b2 b3 b4 b5 b6 b7 b8 b9,
      l = [a0, a1, a2, a3, a4, a5, a6, a7, a8, a9, b0, b1, b2, b3, b4, b5, b6, b7, b8, b9] := by
  obtain ⟨a0, a1, a2, a3, l0, rfl, h0⟩ := list4_cases l 16 h
  obtain ⟨a4, a5, a6, a7, l1, rfl, h1⟩ := list4_cases l0 12 h0
  obtain ⟨a8, a9, b0, b1, l2, rfl, h2⟩ := list4_cases l1 8 h1
  obtain ⟨b2, b3, b4, b5, l3, rfl, h3⟩ := list4_cases l2 4 h2
  obtain ⟨b6, b7, b8, b9, l4, rfl, h4⟩ := list4_cases l3 0 h3
  have : l4 = [] := List.length_eq_zero.mp h4
  subst this
  exact ⟨a0, a1, a2, a3, a4, a5, a6, a7, a8, a9, b0, b1, b2, b3, b4, b5, b6, b7, b8, b9, rfl⟩

set_option maxHeartbeats 4000000 in
theorem rotate_positions_eq (face times : Int) (hf : 0 ≤ face ∧ face < 6)
    (ht : -2 ≤ times ∧ times ≤ 2) (co mp : List Int) (hmp : mp.length = 20) :
    (rotate_cube_face face times co mp).2 = (face_permutation face times).map (rd mp) := by
  obtain ⟨a0, a1, a2, a3, a4, a5, a6, a7, a8, a9, b0, b1, b2, b3, b4, b5, b6, b7, b8, b9, rfl⟩ :=
    list20_cases mp hmp
  obtain ⟨hf0, hf1⟩ := hf
  obtain ⟨ht0, ht1⟩ := ht
  interval_cases face <;> interval_cases times <;>
    simp [rotate_cube_face, face_permutation, identity_positions, NMINICUBES, row,
      POSITIONS_BY_FACE, do_while, move_minicubes, move_minicubes_reverse, rd, wr,
      List.range, List.range.loop]

theorem rotate_orients_eq (face times : Int) (ht : -2 ≤ times ∧ times ≤ 2)
    (co mp : List Int) :
    (rotate_cube_face face times co mp).1
      = rotate_orientations (face_transform face times) (row POSITIONS_BY_FACE face)
          times.natAbs co (rotate_cube_face face times co mp).2 := by
  obtain ⟨ht0, ht1⟩ := ht
  interval_cases times
  · simp [rotate_cube_face, face_transform]
  · simp [rotate_cube_face, face_transform]
  · simp [rotate_cube_face, face_transform, rotate_orientations, do_while, NMINICUBES_PER_FACE]
  · simp [rotate_cube_face, face_transform]
  · simp [rotate_cube_face, face_transform]

theorem rotate_orientations_eq (tr posarr : List Int) (t : Nat) (co mp : List Int)
    (hl : posarr.length = 8) :
    rotate_orientations tr posarr t co mp
      = (posarr.map (rd mp)).foldl
          (fun co i => do_while t (fun c => wr c i (rd tr (rd c i))) co) co := by
  obtain ⟨p0, p1, p2, p3, l0, rfl, h0⟩ := list4_cases posarr 4 hl
  obtain ⟨p4, p5, p6, p7, l1, rfl, h1⟩ := list4_cases l0 0 h0
  have : l1 = [] := List.length_eq_zero.mp h1
  subst this
  rfl

theorem face_pieces_after (face times : Int) (hf : 0 ≤ face ∧ face < 6)
    (ht : -2 ≤ times ∧ times ≤ 2) (mp : List Int) :
    (face_pieces face ((face_permutation face times).map (rd mp))).Perm
      (face_pieces face mp) := by
  have hlen := is_permutation_length _ (face_permutation_perm face times hf ht)
  have e : face_pieces face ((face_permutation face times).map (rd mp))
      = ((row POSITIONS_BY_FACE face).map (rd (face_permutation face times))).map (rd mp) := by
    unfold face_pieces
    rw [List.map_map]
    apply List.map_congr_left
    intro q hq
    have := row_positions_range face hf q hq
    exact rd_map _ _ _ this.1 (by rw [hlen]; exact this.2)
  rw [e]
  exact List.Perm.map _ (face_permutation_positions face times hf ht)

theorem face_pieces_nodup (face : Int) (hf : 0 ≤ face ∧ face < 6) (mp : List Int)
    (hmp : is_permutation mp) : (face_pieces face mp).Nodup :=
  nodup_map_rd mp _ (is_permutation_nodup mp hmp) (row_positions_nodup face hf)
    (fun j hj => by
      rw [is_permutation_length mp hmp]
      exact row_positions_range face hf j hj)

theorem face_pieces_range (face : Int) (hf : 0 ≤ face ∧ face < 6) (mp : List Int)
    (hmp : is_permutation mp) : ∀ i ∈ face_pieces face mp, 0 ≤ i ∧ i < 20 := by
  intro i hi
  obtain ⟨q, hq, rfl⟩ := List.mem_map.mp hi
  have := row_positions_range face hf q hq
  exact is_permutation_range mp hmp _
    (rd_mem mp q this.1 (by rw [is_permutation_length mp hmp]; exact this.2))

theorem rotate_positions_perm (face times : Int) (hf : 0 ≤ face ∧ face < 6)
    (ht : -2 ≤ times ∧ times ≤ 2) (mp : List Int) (hmp : is_permutation mp) :
    is_permutation ((face_permutation face times).map (rd mp)) := by
  have h1 : ((face_permutation face times).map (rd mp)).Perm (identity_positions.map (rd mp)) :=
    List.Perm.map _ (face_permutation_perm face times hf ht)
  rw [map_rd_identity mp (is_permutation_length mp hmp)] at h1
  exact h1.trans hmp

/-- What `rotate_cube_face` leaves in the two arrays. -/
theorem rotate_cube_face_spec (face times : Int) (hf : 0 ≤ face ∧ face < 6)
    (ht : -2 ≤ times ∧ times ≤ 2) (co mp : List Int) (hco : co.length = 20)
    (hmp : is_permutation mp) :
    (rotate_cube_face face times co mp).2 = (face_permutation face times).map (rd mp) ∧
    (rotate_cube_face face times co mp).1.length = 20 ∧
    ∀ k, rd (rotate_cube_face face times co mp).1 k
      = if k ∈ face_pieces face mp then
          transform_times (face_transform face times) times.natAbs (rd co k)
        else rd co k := by
  have hlen := is_permutation_length mp hmp
  have h2 := rotate_positions_eq face times hf ht co mp hlen
  have hp1 := rotate_positions_perm face times hf ht mp hmp
  have hperm := face_pieces_after face times hf ht mp
  have hnd := face_pieces_nodup face hf _ hp1
  have hrg := face_pieces_range face hf _ hp1
  have h1 := rotate_orients_eq face times ht co mp
  rw [h2, rotate_orientations_eq _ _ _ _ _ (row_positions_length face hf)] at h1
  obtain ⟨a, b⟩ := foldl_orient (face_transform face times) times.natAbs
    (face_pieces face ((face_permutation face times).map (rd mp))) co hnd
    (fun i hi => by rw [hco]; exact hrg i hi)
  refine ⟨h2, ?_, ?_⟩
  · rw [h1]; exact a.trans hco
  · intro k
    rw [h1]
    have := b k
    unfold face_pieces at this hperm
    rw [this]
    simp only [List.Perm.mem_iff hperm]
    rfl

theorem int_cases_lt (P : Int → Prop) (N : Nat) (h : ∀ n : Nat, n < N → P n) (x : Int)
    (h0 : 0 ≤ x) (h1 : x < N) : P x := by
  obtain ⟨n, rfl⟩ := Int.eq_ofNat_of_zero_le h0
  exact h n (by omega)

theorem face_permutation_preserving (face times : Int) (hf : 0 ≤ face ∧ face < 6)
    (ht : -2 ≤ times ∧ times ≤ 2) : face_preserving face (face_permutation face times) :=
  ⟨is_permutation_length _ (face_permutation_perm face times hf ht),
    is_permutation_range _ (face_permutation_perm face times hf ht),
    face_permutation_positions face times hf ht⟩

theorem acts_rotate (face times : Int) (hf : 0 ≤ face ∧ face < 6)
    (ht : -2 ≤ times ∧ times ≤ 2) (co mp : List Int) (hco : co.length = 20)
    (hmp : is_permutation mp) :
    acts face (face_permutation face times)
      (transform_times (face_transform face times) times.natAbs)
      (co, mp) (rotate_cube_face face times co mp) :=
  rotate_cube_face_spec face times hf ht co mp hco hmp

theorem face_pieces_map (face : Int) (hf : 0 ≤ face ∧ face < 6) (sigma mp : List Int)
    (hs : face_preserving face sigma) :
    (face_pieces face (sigma.map (rd mp))).Perm (face_pieces face mp) := by
  have e : face_pieces face (sigma.map (rd mp))
      = ((row POSITIONS_BY_FACE face).map (rd sigma)).map (rd mp) := by
    unfold face_pieces
    rw [List.map_map]
    apply List.map_congr_left
    intro q hq
    have := row_positions_range face hf q hq
    exact rd_map _ _ _ this.1 (by rw [hs.1]; exact this.2)
  rw [e]
  exact List.Perm.map _ hs.2.2

theorem acts_comp (face : Int) (hf : 0 ≤ face ∧ face < 6) (sigma1 sigma2 : List Int)
    (tau1 tau2 : Int → Int) (s1 s2 s3 : List Int × List Int)
    (hs1 : face_preserving face sigma1) (hs2 : ∀ q ∈ sigma2, 0 ≤ q ∧ q < 20)
    (h12 : acts face sigma1 tau1 s1 s2) (h23 : acts face sigma2 tau2 s2 s3) :
    acts face (sigma2.map (rd sigma1)) (fun o => tau2 (tau1 o)) s1 s3 := by
  obtain ⟨a1, b1, c1⟩ := h12
  obtain ⟨a2, b2, c2⟩ := h23
  refine ⟨?_, b2, ?_⟩
  · rw [a2, a1, List.map_map]
    apply List.map_congr_left
    intro q hq
    have := hs2 q hq
    exact rd_map _ _ _ this.1 (by rw [hs1.1]; exact this.2)
  · intro k
    have hiff := List.Perm.mem_iff (face_pieces_map face hf sigma1 s1.2 hs1) (a := k)
    rw [c2 k, a1, c1 k]
    by_cases hk : k ∈ face_pieces face s1.2
    · simp [hk, hiff.mpr hk]
    · have hk2 : ¬ k ∈ face_pieces face (sigma1.map (rd s1.2)) := fun h => hk (hiff.mp h)
      simp [hk, hk2]

theorem acts_identity (face : Int) (tau : Int → Int)
    (co mp : List Int) (s2 : List Int × List Int) (hco : valid_orients co)
    (hmp : is_permutation mp) (ht : ∀ o : Nat, o < 24 → tau o = o)
    (h : acts face identity_positions tau (co, mp) s2) : s2 = (co, mp) := by
  obtain ⟨a, b, c⟩ := h
  have hlen := is_permutation_length mp hmp
  apply Prod.ext
  · apply ext_rd
    · rw [b]; exact hco.1.symm
    · intro k hk
      rw [c k]
      by_cases hm : (k : Int) ∈ face_pieces face mp
      · have hk2 : k < 20 := by rw [b] at hk; exact hk
        have hr := hco.2 _ (rd_mem co k (Int.ofNat_nonneg k) (by rw [hco.1]; omega))
        simp only [hm, if_true]
        exact int_cases_lt (fun o => tau o = o) 24 ht _ hr.1 hr.2
      · simp [hm]
  · rw [a]
    exact map_rd_identity mp hlen

theorem face_permutation_inverse (face times : Int) (hf : 0 ≤ face ∧ face < 6)
    (ht : -2 ≤ times ∧ times ≤ 2) :
    (face_permutation face (-times)).map (rd (face_permutation face times))
      = identity_positions := by
  obtain ⟨h0, h1⟩ := hf
  obtain ⟨h2, h3⟩ := ht
  interval_cases face <;> interval_cases times <;> decide

set_option maxRecDepth 100000 in
theorem face_transform_inverse (face times : Int) (hf : 0 ≤ face ∧ face < 6)
    (ht : -2 ≤ times ∧ times ≤ 2) :
    ∀ o : Nat, o < 24 →
      transform_times (face_transform face (-times)) (-times).natAbs
        (transform_times (face_transform face times) times.natAbs o) = o := by
  obtain ⟨h0, h1⟩ := hf
  obtain ⟨h2, h3⟩ := ht
  interval_cases face <;> interval_cases times <;> decide

set_option maxRecDepth 100000 in
theorem position_of_table :
    ∀ i : Nat, i < 20 → ∀ o : Nat, o < 24 →
      position_of i o = rd (row POSITION_TABLE i) o := by
  decide

theorem position_table_range :
    ∀ i : Nat, i < 20 → ∀ o : Nat, o < 24 →
      0 ≤ rd (row POSITION_TABLE i) o ∧ rd (row POSITION_TABLE i) o < 20 := by
  decide

set_option maxRecDepth 100000 in
theorem face_transform_range (face times : Int) (hf : 0 ≤ face ∧ face < 6)
    (ht : -2 ≤ times ∧ times ≤ 2) :
    ∀ o : Nat, o < 24 →
      0 ≤ transform_times (face_transform face times) times.natAbs o ∧
      transform_times (face_transform face times) times.natAbs o < 24 := by
  obtain ⟨h0, h1⟩ := hf
  obtain ⟨h2, h3⟩ := ht
  interval_cases face <;> interval_cases times <;> decide

set_option maxRecDepth 100000 in
set_option maxHeartbeats 4000000 in
theorem position_table_transform (face times : Int) (hf : 0 ≤ face ∧ face < 6)
    (ht : -2 ≤ times ∧ times ≤ 2) :
    ∀ i : Nat, i < 20 → ∀ o : Nat, o < 24 →
      rd (row POSITION_TABLE i) o ∈ row POSITIONS_BY_FACE face →
      rd (face_permutation face times)
          (rd (row POSITION_TABLE i)
            (transform_times (face_transform face times) times.natAbs o))
        = rd (row POSITION_TABLE i) o := by
  obtain ⟨h0, h1⟩ := hf
  obtain ⟨h2, h3⟩ := ht
  interval_cases face <;> interval_cases times <;> decide

theorem rotate_cube_face_shape (face times : Int) (hf : 0 ≤ face ∧ face < 6)
    (ht : -2 ≤ times ∧ times ≤ 2) (co mp : List Int) (hco : co.length = 20)
    (hmp : is_permutation mp) :
    (rotate_cube_face face times co mp).1.length = 20 ∧
      is_permutation (rotate_cube_face face times co mp).2 := by
  obtain ⟨a, b, _⟩ := rotate_cube_face_spec face times hf ht co mp hco hmp
  exact ⟨b, by rw [a]; exact rotate_positions_perm face times hf ht mp hmp⟩

/-- C1. Inverse law: on every state whose orientations are in 0..23 and whose
`minicubesbypos` is a permutation of 0..19, for every face 0..5 and every
count -2..2, `rotate_cube_face(face, times)` followed by
`rotate_cube_face(face, -times)` leaves both arrays as they were before the
first call. -/
theorem rotate_cube_face_inverse (face times : Int) (hf : 0 ≤ face ∧ face < 6)
    (ht : -2 ≤ times ∧ times ≤ 2) (currentorients minicubesbypos : List Int)
    (hco : valid_orients currentorients) (hmp : is_permutation minicubesbypos) :
    rotate_cube_face face (-times)
        (rotate_cube_face face times currentorients minicubesbypos).1
        (rotate_cube_face face times currentorients minicubesbypos).2
      = (currentorients, minicubesbypos) := by
  have ht2 : -2 ≤ -times ∧ -times ≤ 2 := by omega
  have h12 := acts_rotate face times hf ht _ _ hco.1 hmp
  obtain ⟨hl1, hp1⟩ := rotate_cube_face_shape face times hf ht _ _ hco.1 hmp
  have h23 := acts_rotate face (-times) hf ht2 _ _ hl1 hp1
  have h13 := acts_comp face hf _ _ _ _ _ _ _ (face_permutation_preserving face times hf ht)
    (face_permutation_preserving face (-times) hf ht2).2.1 h12 h23
  rw [face_permutation_inverse face times hf ht] at h13
  exact acts_identity face _ _ _ _ hco hmp (face_transform_inverse face times hf ht) h13

/-- C1 at the scenario of the specification: from the solved state,
`rotate_cube_face(2, 1)` then `rotate_cube_face(2, -1)`. -/
theorem rotate_cube_face_inverse_witness :
    (valid_orients solved_orients ∧ is_permutation identity_positions) ∧
    rotate_cube_face 2 (-1)
        (rotate_cube_face 2 1 solved_orients identity_positions).1
        (rotate_cube_face 2 1 solved_orients identity_positions).2
      = (solved_orients, identity_positions) :=
  ⟨⟨by decide, by decide⟩,
    rotate_cube_face_inverse 2 1 (by decide) (by decide) solved_orients identity_positions
      (by decide) (by decide)⟩

theorem face_permutation_powers (face : Int) (hf : 0 ≤ face ∧ face < 6) :
    face_preserving face ((face_permutation face 1).map (rd (face_permutation face 1))) ∧
    face_preserving face ((face_permutation face 1).map
      (rd ((face_permutation face 1).map (rd (face_permutation face 1))))) ∧
    (face_permutation face 1).map (rd ((face_permutation face 1).map
      (rd ((face_permutation face 1).map (rd (face_permutation face 1)))))) 
      = identity_positions := by
  obtain ⟨h0, h1⟩ := hf
  interval_cases face <;> decide

set_option maxRecDepth 100000 in
theorem face_transform_four (face : Int) (hf : 0 ≤ face ∧ face < 6) :
    ∀ o : Nat, o < 24 →
      transform_times (face_transform face 1) 1
        (transform_times (face_transform face 1) 1
          (transform_times (face_transform face 1) 1
            (transform_times (face_transform face 1) 1 o))) = o := by
  obtain ⟨h0, h1⟩ := hf
  interval_cases face <;> decide

/-- C2. Four quarter turns are the identity: on every state whose orientations
are in 0..23 and whose `minicubesbypos` is a permutation of 0..19, and for
every face 0..5, four calls of `rotate_cube_face(face, 1)` in a row return
both arrays to their starting values. -/
theorem rotate_cube_face_four_times (face : Int) (hf : 0 ≤ face ∧ face < 6)
    (currentorients minicubesbypos : List Int)
    (hco : valid_orients currentorients) (hmp : is_permutation minicubesbypos) :
    rotate_cube_faces [(face, 1), (face, 1), (face, 1), (face, 1)]
        (currentorients, minicubesbypos)
      = (currentorients, minicubesbypos) := by
  have ht : (-2 : Int) ≤ 1 ∧ (1 : Int) ≤ 2 := by decide
  have hpres := face_permutation_preserving face 1 hf ht
  obtain ⟨p2, p3, p4⟩ := face_permutation_powers face hf
  have h01 := acts_rotate face 1 hf ht _ _ hco.1 hmp
  obtain ⟨hl1, hp1⟩ := rotate_cube_face_shape face 1 hf ht _ _ hco.1 hmp
  have h12 := acts_rotate face 1 hf ht _ _ hl1 hp1
  obtain ⟨hl2, hp2⟩ := rotate_cube_face_shape face 1 hf ht _ _ hl1 hp1
  have h23 := acts_rotate face 1 hf ht _ _ hl2 hp2
  obtain ⟨hl3, hp3⟩ := rotate_cube_face_shape face 1 hf ht _ _ hl2 hp2
  have h34 := acts_rotate face 1 hf ht _ _ hl3 hp3
  have h02 := acts_comp face hf _ _ _ _ _ _ _ hpres hpres.2.1 h01 h12
  have h03 := acts_comp face hf _ _ _ _ _ _ _ p2 hpres.2.1 h02 h23
  have h04 := acts_comp face hf _ _ _ _ _ _ _ p3 hpres.2.1 h03 h34
  rw [p4] at h04
  exact acts_identity face _ _ _ _ hco hmp (face_transform_four face hf) h04

/-- C2 from the solved state: four calls of `rotate_cube_face(0, 1)` give back
the solved state exactly. -/
theorem rotate_cube_face_four_times_witness :
    (valid_orients solved_orients ∧ is_permutation identity_positions) ∧
    rotate_cube_faces [(0, 1), (0, 1), (0, 1), (0, 1)] (solved_orients, identity_positions)
      = (solved_orients, identity_positions) :=
  ⟨⟨by decide, by decide⟩,
    rotate_cube_face_four_times 0 (by decide) solved_orients identity_positions
      (by decide) (by decide)⟩

/-! ## The loops of `init_cube_point` -/

theorem position_of_range (i : Nat) (hi : i < 20) (o : Int) (ho : 0 ≤ o ∧ o < 24) :
    0 ≤ position_of i o ∧ position_of i o < 20 := by
  refine int_cases_lt (fun o => 0 ≤ position_of i o ∧ position_of i o < 20) 24 ?_ o ho.1 ho.2
  intro n hn
  show 0 ≤ position_of i n ∧ position_of i n < 20
  rw [position_of_table i hi n hn]
  exact position_table_range i hi n hn

theorem init_cube_point_loop_cons (co : List Int) (i : Nat) (rest : List Nat)
    (mp : List Int) :
    init_cube_point_loop co (i :: rest) mp
      = if rd mp (position_of i (rd co i)) ≠ -1 then (false, mp)
        else init_cube_point_loop co rest (wr mp (position_of i (rd co i)) i) := rfl

theorem init_cube_point_loop_spec (co : List Int) :
    ∀ (L : List Nat) (mp : List Int),
      (∀ i ∈ L, 0 ≤ position_of i (rd co i) ∧ position_of i (rd co i) < mp.length) →
      (((init_cube_point_loop co L mp).1 = true ↔
          (L.map (fun (i : Nat) => position_of i (rd co i))).Nodup ∧
            ∀ i ∈ L, rd mp (position_of i (rd co i)) = -1) ∧
        ((init_cube_point_loop co L mp).1 = true →
          (init_cube_point_loop co L mp).2.length = mp.length ∧
          (∀ i ∈ L, rd (init_cube_point_loop co L mp).2 (position_of i (rd co i)) = i) ∧
          ∀ k, (∀ i ∈ L, position_of i (rd co i) ≠ k) →
            rd (init_cube_point_loop co L mp).2 k = rd mp k)) := by
  intro L
  induction L with
  | nil =>
    intro mp _
    simp [init_cube_point_loop]
  | cons i L ih =>
    intro mp hr
    rw [init_cube_point_loop_cons]
    obtain ⟨hi0, hi1⟩ := hr i (List.mem_cons_self _ _)
    by_cases hfree : rd mp (position_of i (rd co i)) = -1
    · rw [if_neg (by simpa using hfree)]
      have hlen := length_wr mp (position_of i (rd co i)) i
      obtain ⟨ih1, ih2⟩ := ih (wr mp (position_of i (rd co i)) i)
        (fun j hj => by rw [hlen]; exact hr j (List.mem_cons_of_mem _ hj))
      have hw : ∀ j : Nat, rd (wr mp (position_of i (rd co i)) i) (position_of j (rd co j)) = -1
          ↔ position_of j (rd co j) ≠ position_of i (rd co i) ∧
            rd mp (position_of j (rd co j)) = -1 := by
        intro j
        by_cases e : position_of j (rd co j) = position_of i (rd co i)
        · rw [e, rd_wr_same mp _ _ hi0 hi1]
          constructor
          · intro h
            have : (0 : Int) ≤ (i : Int) := Int.ofNat_nonneg i
            omega
          · intro h; exact absurd rfl h.1
        · rw [rd_wr_ne mp _ _ _ e]
          simp [e]
      constructor
      · rw [ih1]
        simp only [List.map_cons, List.nodup_cons, List.mem_map, List.mem_cons, hw]
        constructor
        · rintro ⟨hnd, hall⟩
          refine ⟨⟨?_, hnd⟩, ?_⟩
          · rintro ⟨j, hj, e⟩
            exact (hall j hj).1 e
          · rintro j (rfl | hj)
            · exact hfree
            · exact (hall j hj).2
        · rintro ⟨⟨hni, hnd⟩, hall⟩
          refine ⟨hnd, fun j hj => ⟨?_, hall j (Or.inr hj)⟩⟩
          intro e
          exact hni ⟨j, hj, e⟩
      · intro htrue
        obtain ⟨a, b, c⟩ := ih2 htrue
        have hall := (ih1.mp htrue).2
        refine ⟨a.trans hlen, ?_, ?_⟩
        · rintro j hj
          rcases List.mem_cons.mp hj with rfl | hj
          · rw [c _ (fun k hk => ((hw k).mp (hall k hk)).1), rd_wr_same mp _ _ hi0 hi1]
          · exact b j hj
        · intro k hk
          rw [c k (fun j hj => hk j (List.mem_cons_of_mem _ hj)),
            rd_wr_ne mp _ _ _ (fun e => hk i (List.mem_cons_self _ _) e.symm)]
    · rw [if_pos (by simpa using hfree)]
      constructor
      · constructor
        · intro h; exact absurd h (by simp)
        · rintro ⟨_, hall⟩
          exact absurd (hall i (List.mem_cons_self _ _)) hfree
      · intro h; exact absurd h (by simp)

theorem rd_map_range (n : Nat) (g : Nat → Int) (i : Nat) (hi : i < n) :
    rd ((List.range n).map g) i = g i := by
  simp [rd_natCast, List.getD_eq_getElem?_getD, hi]

theorem rd_replicate (n : Nat) (v : Int) (k : Int) (hk : 0 ≤ k ∧ k < n) :
    rd (List.replicate n v) k = v := by
  obtain ⟨m, rfl⟩ := Int.eq_ofNat_of_zero_le hk.1
  have : m < n := by omega
  simp [rd_natCast, List.getD_eq_getElem?_getD, this]

theorem valid_cube_point_chars_iff (arg : List Int) :
    valid_cube_point_chars arg = true ↔ arg.length = 20 ∧ ∀ c ∈ arg, 65 ≤ c ∧ c ≤ 88 := by
  unfold valid_cube_point_chars NORIENTS
  by_cases h : arg.any (fun c => decide (c < 65 ∨ c > 65 + ((24 : Nat) : Int) - 1)) = true
  · rw [if_pos h]
    simp only [List.any_eq_true, decide_eq_true_eq] at h
    obtain ⟨c, hc, hlt⟩ := h
    constructor
    · intro h; exact absurd h (by simp)
    · rintro ⟨_, hall⟩
      have := hall c hc
      omega
  · rw [if_neg h]
    simp only [List.any_eq_true, decide_eq_true_eq, not_exists, not_and] at h
    by_cases hl : arg.length = 20
    · simp only [hl, ne_eq, not_true_eq_false, if_false, true_and, true_iff]
      intro c hc
      have := h c hc
      omega
    · simp [hl]

theorem init_orients_valid (s : List Int) (hs : valid_cube_point_chars s = true) :
    valid_orients (init_cube_point s).2.1 := by
  obtain ⟨hl, hc⟩ := (valid_cube_point_chars_iff s).mp hs
  refine ⟨by simp [init_cube_point, NMINICUBES], ?_⟩
  intro o ho
  obtain ⟨i, hi, rfl⟩ := List.mem_map.mp ho
  have hi2 : i < 20 := by simpa [NMINICUBES] using List.mem_range.mp hi
  have := hc _ (rd_mem s i (Int.ofNat_nonneg i) (by rw [hl]; omega))
  omega

theorem rd_init_orients (s : List Int) (i : Nat) (hi : i < 20) :
    rd (init_cube_point s).2.1 i = rd s i - 65 :=
  rd_map_range 20 (fun (i : Nat) => rd s i - 65) i hi

/-- The second loop of `init_cube_point` started on its freshly cleared
`minicubesbypos`, for orientations in range. -/
theorem init_loop_spec (co : List Int) (hco : valid_orients co) :
    ((init_cube_point_loop co (List.range NMINICUBES) (List.replicate NMINICUBES (-1))).1 = true
      ↔ ((List.range 20).map (fun (i : Nat) => position_of i (rd co i))).Nodup) ∧
    ((init_cube_point_loop co (List.range NMINICUBES) (List.replicate NMINICUBES (-1))).1 = true →
      (init_cube_point_loop co (List.range NMINICUBES)
        (List.replicate NMINICUBES (-1))).2.length = 20 ∧
      ∀ i : Nat, i < 20 →
        rd (init_cube_point_loop co (List.range NMINICUBES)
          (List.replicate NMINICUBES (-1))).2 (position_of i (rd co i)) = i) := by
  have hrange : ∀ i ∈ List.range NMINICUBES,
      0 ≤ position_of i (rd co i) ∧ position_of i (rd co i) < 20 := by
    intro i hi
    have hi2 : i < 20 := by simpa [NMINICUBES] using List.mem_range.mp hi
    exact position_of_range i hi2 _
      (hco.2 _ (rd_mem co i (Int.ofNat_nonneg i) (by rw [hco.1]; omega)))
  obtain ⟨h1, h2⟩ := init_cube_point_loop_spec co (List.range NMINICUBES)
    (List.replicate NMINICUBES (-1))
    (fun i hi => by simpa [NMINICUBES] using hrange i hi)
  constructor
  · rw [h1]
    constructor
    · intro h; exact h.1
    · intro h
      refine ⟨h, fun i hi => rd_replicate _ _ _ ?_⟩
      simpa [NMINICUBES] using hrange i hi
  · intro h
    obtain ⟨a, b, _⟩ := h2 h
    refine ⟨by simpa [NMINICUBES] using a, fun i hi => b i ?_⟩
    simpa [NMINICUBES] using hi

theorem positions_perm (co : List Int) (hco : valid_orients co)
    (hn : ((List.range 20).map (fun (i : Nat) => position_of i (rd co i))).Nodup) :
    is_permutation ((List.range 20).map (fun (i : Nat) => position_of i (rd co i))) := by
  apply is_permutation_of_nodup _ (by simp) hn
  intro x hx
  obtain ⟨i, hi, rfl⟩ := List.mem_map.mp hx
  have hi2 : i < 20 := List.mem_range.mp hi
  exact position_of_range i hi2 _
    (hco.2 _ (rd_mem co i (Int.ofNat_nonneg i) (by rw [hco.1]; omega)))

theorem is_permutation_of_positions (co mp : List Int) (hco : valid_orients co)
    (hl : mp.length = 20)
    (hn : ((List.range 20).map (fun (i : Nat) => position_of i (rd co i))).Nodup)
    (h : ∀ i : Nat, i < 20 → rd mp (position_of i (rd co i)) = i) :
    is_permutation mp := by
  have hP := positions_perm co hco hn
  have e : ((List.range 20).map (fun (i : Nat) => position_of i (rd co i))).map (rd mp)
      = identity_positions := by
    rw [List.map_map]
    unfold identity_positions NMINICUBES
    apply List.map_congr_left
    intro i hi
    exact h i (List.mem_range.mp hi)
  have h1 := List.Perm.map (rd mp) hP
  rw [e, map_rd_identity mp hl] at h1
  exact h1.symm

theorem consistent_of_init (s : List Int) (hs : valid_cube_point_chars s = true)
    (h : (init_cube_point s).1 = true) :
    consistent (init_cube_point s).2.1 (init_cube_point s).2.2 := by
  have hco := init_orients_valid s hs
  obtain ⟨h1, h2⟩ := init_loop_spec _ hco
  have hn := h1.mp h
  obtain ⟨a, b⟩ := h2 h
  exact ⟨hco, is_permutation_of_positions _ _ hco a hn b, b⟩

theorem init_print_orients (co : List Int) (hl : co.length = 20) :
    (init_cube_point (print_cube_point co)).2.1 = co := by
  apply ext_rd
  · simp [init_cube_point, NMINICUBES, hl]
  · intro k hk
    have hk2 : k < 20 := by simpa [init_cube_point, NMINICUBES] using hk
    rw [rd_init_orients _ k hk2]
    unfold print_cube_point NMINICUBES
    rw [rd_map_range 20 (fun (i : Nat) => rd co i + 65) k hk2]
    omega

theorem init_cube_point_eq (s : List Int) :
    init_cube_point s
      = ((init_cube_point_loop (init_cube_point s).2.1 (List.range NMINICUBES)
            (List.replicate NMINICUBES (-1))).1,
          (init_cube_point s).2.1,
          (init_cube_point_loop (init_cube_point s).2.1 (List.range NMINICUBES)
            (List.replicate NMINICUBES (-1))).2) := rfl

theorem positions_nodup_of_consistent (co mp : List Int) (h : consistent co mp) :
    ((List.range 20).map (fun (i : Nat) => position_of i (rd co i))).Nodup := by
  refine List.Nodup.map_on ?_ (List.nodup_range 20)
  intro i hi j hj e
  have hi2 := h.2.2 i (List.mem_range.mp hi)
  have hj2 := h.2.2 j (List.mem_range.mp hj)
  rw [e, hj2] at hi2
  exact (Int.ofNat_inj.mp hi2).symm

/-- A consistent state is rebuilt by `init_cube_point` from its printed
orientations. -/
theorem init_of_consistent (co mp : List Int) (h : consistent co mp) :
    init_cube_point (print_cube_point co) = (true, co, mp) := by
  have hco := h.1
  have e := init_print_orients co hco.1
  rw [init_cube_point_eq, e]
  obtain ⟨h1, h2⟩ := init_loop_spec co hco
  have hn := positions_nodup_of_consistent co mp h
  have ht := h1.mpr hn
  obtain ⟨a, b⟩ := h2 ht
  have hP := positions_perm co hco hn
  have hmp : (init_cube_point_loop co (List.range NMINICUBES)
      (List.replicate NMINICUBES (-1))).2 = mp := by
    apply ext_rd
    · rw [a, is_permutation_length mp h.2.1]
    · intro k hk
      have hk2 : k < 20 := by rw [a] at hk; exact hk
      have hmem : (k : Int) ∈ identity_positions :=
        (mem_identity_positions k).mpr ⟨Int.ofNat_nonneg k, by omega⟩
      obtain ⟨i, hi, hik⟩ := List.mem_map.mp ((List.Perm.mem_iff hP).mpr hmem)
      have hi2 := List.mem_range.mp hi
      rw [← hik, b i hi2, h.2.2 i hi2]
  rw [ht, hmp]

theorem mem_face_pieces_iff (face : Int) (hf : 0 ≤ face ∧ face < 6) (co mp : List Int)
    (h : consistent co mp) (i : Nat) (hi : i < 20) :
    (i : Int) ∈ face_pieces face mp ↔
      position_of i (rd co i) ∈ row POSITIONS_BY_FACE face := by
  have hlen := is_permutation_length mp h.2.1
  have hpr := position_of_range i hi _
    (h.1.2 _ (rd_mem co i (Int.ofNat_nonneg i) (by rw [h.1.1]; omega)))
  constructor
  · intro hm
    obtain ⟨q, hq, e⟩ := List.mem_map.mp hm
    have hqr := row_positions_range face hf q hq
    have := rd_inj mp (is_permutation_nodup mp h.2.1) q (position_of i (rd co i))
      (by rw [hlen]; exact hqr) (by rw [hlen]; exact hpr) (by rw [e, h.2.2 i hi])
    rw [← this]; exact hq
  · intro hm
    exact List.mem_map.mpr ⟨_, hm, h.2.2 i hi⟩

/-- A rotation keeps the state consistent. -/
theorem consistent_rotate (face times : Int) (hf : 0 ≤ face ∧ face < 6)
    (ht : -2 ≤ times ∧ times ≤ 2) (co mp : List Int) (h : consistent co mp) :
    consistent (rotate_cube_face face times co mp).1 (rotate_cube_face face times co mp).2 := by
  obtain ⟨a, b, c⟩ := rotate_cube_face_spec face times hf ht co mp h.1.1 h.2.1
  have hlen := is_permutation_length mp h.2.1
  have hsl := is_permutation_length _ (face_permutation_perm face times hf ht)
  have hor : ∀ i : Nat, i < 20 → 0 ≤ rd co i ∧ rd co i < 24 := fun i hi =>
    h.1.2 _ (rd_mem co i (Int.ofNat_nonneg i) (by rw [h.1.1]; omega))
  have hnew : ∀ i : Nat, i < 20 →
      0 ≤ rd (rotate_cube_face face times co mp).1 i ∧
        rd (rotate_cube_face face times co mp).1 i < 24 := by
    intro i hi
    rw [c i]
    split
    · exact int_cases_lt
        (fun o => 0 ≤ transform_times (face_transform face times) times.natAbs o ∧
          transform_times (face_transform face times) times.natAbs o < 24) 24
        (face_transform_range face times hf ht) _ (hor i hi).1 (hor i hi).2
    · exact hor i hi
  refine ⟨⟨b, ?_⟩, ?_, ?_⟩
  · intro o ho
    obtain ⟨k, hk, rfl⟩ := exists_rd_of_mem _ o ho
    exact hnew k (by rw [b] at hk; exact hk)
  · rw [a]; exact rotate_positions_perm face times hf ht mp h.2.1
  · intro i hi
    have hpos := position_of_range i hi _ (hnew i hi)
    rw [a, rd_map _ _ _ hpos.1 (by rw [hsl]; exact hpos.2), c i]
    obtain ⟨n, hn⟩ := Int.eq_ofNat_of_zero_le (hor i hi).1
    have hn24 : n < 24 := by have := (hor i hi).2; omega
    by_cases hm : (i : Int) ∈ face_pieces face mp
    · rw [if_pos hm]
      have hq := (mem_face_pieces_iff face hf co mp h i hi).mp hm
      have key := position_table_transform face times hf ht i hi n hn24
      rw [hn] at hq ⊢
      obtain ⟨m, hm2⟩ := Int.eq_ofNat_of_zero_le
        (face_transform_range face times hf ht n hn24).1
      have hm24 : m < 24 := by
        have := (face_transform_range face times hf ht n hn24).2; omega
      rw [position_of_table i hi n hn24] at hq
      rw [hm2, position_of_table i hi m hm24, ← hm2, key hq,
        ← position_of_table i hi n hn24, ← hn]
      exact h.2.2 i hi
    · rw [if_neg hm]
      have hq := fun x => hm ((mem_face_pieces_iff face hf co mp h i hi).mpr x)
      have hpr := position_of_range i hi _ (hor i hi)
      rw [face_permutation_fixes face times hf ht _ ((mem_identity_positions _).mpr hpr) hq]
      exact h.2.2 i hi

theorem consistent_rotate_faces :
    ∀ (moves : List (Int × Int)) (s : List Int × List Int), valid_moves moves →
      consistent s.1 s.2 →
      consistent (rotate_cube_faces moves s).1 (rotate_cube_faces moves s).2 := by
  intro moves
  induction moves with
  | nil => intro s _ h; exact h
  | cons m rest ih =>
    intro s hv h
    obtain ⟨face, times⟩ := m
    have hm := hv (face, times) (List.mem_cons_self _ _)
    exact ih _ (fun x hx => hv x (List.mem_cons_of_mem _ hx))
      (consistent_rotate face times hm.1 hm.2 s.1 s.2 h)

/-- C3. Position/orientation consistency is preserved by moves: for every
string accepted by `valid_cube_point_chars` on which `init_cube_point`
succeeds, and every finite sequence of calls `rotate_cube_face(f, n)` with `f`
in 0..5 and `n` in -2..2, the string printed from the resulting
`currentorients` is accepted by `init_cube_point`, which rebuilds exactly the
same `currentorients` and `minicubesbypos`; and each minicube `i` sits at the
position `find_minicube_position(apply_orientation(ORIGCOLORS[i],
ORIENTATIONS[currentorients[i]]))`, which is `position_of`. -/
theorem init_cube_point_after_moves (s : List Int) (hs : valid_cube_point_chars s = true)
    (hi : (init_cube_point s).1 = true) (moves : List (Int × Int))
    (hm : valid_moves moves) :
    init_cube_point (print_cube_point
        (rotate_cube_faces moves ((init_cube_point s).2.1, (init_cube_point s).2.2)).1)
      = (true,
          (rotate_cube_faces moves ((init_cube_point s).2.1, (init_cube_point s).2.2)).1,
          (rotate_cube_faces moves ((init_cube_point s).2.1, (init_cube_point s).2.2)).2) ∧
    ∀ i : Nat, i < 20 →
      rd (rotate_cube_faces moves ((init_cube_point s).2.1, (init_cube_point s).2.2)).2
          (position_of i
            (rd (rotate_cube_faces moves
              ((init_cube_point s).2.1, (init_cube_point s).2.2)).1 i))
        = i := by
  have h := consistent_rotate_faces moves ((init_cube_point s).2.1, (init_cube_point s).2.2)
    hm (consistent_of_init s hs hi)
  exact ⟨init_of_consistent _ _ h, h.2.2⟩

/-- C3 on the solved cube after the moves entered as "12'3". -/
theorem init_cube_point_after_moves_witness :
    (valid_cube_point_chars solved_point = true ∧ (init_cube_point solved_point).1 = true ∧
      valid_moves [(0, 1), (1, -1), (2, 2)]) ∧
    init_cube_point (print_cube_point
        (rotate_cube_faces [(0, 1), (1, -1), (2, 2)]
          ((init_cube_point solved_point).2.1, (init_cube_point solved_point).2.2)).1)
      = (true,
          (rotate_cube_faces [(0, 1), (1, -1), (2, 2)]
            ((init_cube_point solved_point).2.1, (init_cube_point solved_point).2.2)).1,
          (rotate_cube_faces [(0, 1), (1, -1), (2, 2)]
            ((init_cube_point solved_point).2.1, (init_cube_point solved_point).2.2)).2) :=
  ⟨⟨by decide, by decide, by decide⟩,
    (init_cube_point_after_moves solved_point (by decide) (by decide)
      [(0, 1), (1, -1), (2, 2)] (by decide)).1⟩

theorem rotate_cube_face_valid (face times : Int) (hf : 0 ≤ face ∧ face < 6)
    (ht : -2 ≤ times ∧ times ≤ 2) (co mp : List Int) (hco : valid_orients co)
    (hmp : is_permutation mp) :
    valid_orients (rotate_cube_face face times co mp).1 ∧
      is_permutation (rotate_cube_face face times co mp).2 := by
  obtain ⟨a, b, c⟩ := rotate_cube_face_spec face times hf ht co mp hco.1 hmp
  refine ⟨⟨b, ?_⟩, by rw [a]; exact rotate_positions_perm face times hf ht mp hmp⟩
  intro o ho
  obtain ⟨k, hk, rfl⟩ := exists_rd_of_mem _ o ho
  have hk2 : k < 20 := by rw [b] at hk; exact hk
  have hor := hco.2 _ (rd_mem co k (Int.ofNat_nonneg k) (by rw [hco.1]; omega))
  rw [c k]
  split
  · exact int_cases_lt
      (fun o => 0 ≤ transform_times (face_transform face times) times.natAbs o ∧
        transform_times (face_transform face times) times.natAbs o < 24) 24
      (face_transform_range face times hf ht) _ hor.1 hor.2
  · exact hor

theorem identity_positions_count : ∀ v : Nat, v < 20 → identity_positions.count (v : Int) = 1 := by
  decide

/-- C4. `minicubesbypos` is always a permutation: whenever `init_cube_point`
returns true on a string accepted by `valid_cube_point_chars`,
`minicubesbypos` is a permutation of 0..19 (every value 0..19 occurs exactly
once and no entry is -1); and for every face 0..5 and count -2..2
`rotate_cube_face` takes a state whose `minicubesbypos` is a permutation of
0..19 and whose orientations are in 0..23 to a state with the same two
properties. -/
theorem minicubesbypos_permutation :
    (∀ s : List Int, valid_cube_point_chars s = true → (init_cube_point s).1 = true →
      is_permutation (init_cube_point s).2.2 ∧
      (∀ v : Nat, v < 20 → (init_cube_point s).2.2.count (v : Int) = 1) ∧
      (-1 : Int) ∉ (init_cube_point s).2.2) ∧
    (∀ (face times : Int) (currentorients minicubesbypos : List Int),
      0 ≤ face ∧ face < 6 → -2 ≤ times ∧ times ≤ 2 →
      valid_orients currentorients → is_permutation minicubesbypos →
      valid_orients (rotate_cube_face face times currentorients minicubesbypos).1 ∧
      is_permutation (rotate_cube_face face times currentorients minicubesbypos).2) := by
  constructor
  · intro s hs hi
    have h := (consistent_of_init s hs hi).2.1
    refine ⟨h, ?_, ?_⟩
    · intro v hv
      rw [List.Perm.count_eq h]
      exact identity_positions_count v hv
    · intro hmem
      have := is_permutation_range _ h _ hmem
      omega
  · intro face times co mp hf ht hco hmp
    exact rotate_cube_face_valid face times hf ht co mp hco hmp

/-- C4 on the solved cube and on a quarter turn of face 3 from it. -/
theorem minicubesbypos_permutation_witness :
    (valid_cube_point_chars solved_point = true ∧ (init_cube_point solved_point).1 = true ∧
      valid_orients solved_orients ∧ is_permutation identity_positions) ∧
    is_permutation (init_cube_point solved_point).2.2 ∧
    is_permutation (rotate_cube_face 3 1 solved_orients identity_positions).2 :=
  ⟨⟨by decide, by decide, by decide, by decide⟩,
    (minicubesbypos_permutation.1 solved_point (by decide) (by decide)).1,
    (minicubesbypos_permutation.2 3 1 solved_orients identity_positions (by decide) (by decide)
      (by decide) (by decide)).2⟩

/-- C5. Initialization fails exactly on duplicate positions: for every string
of 20 characters `A`..`X`, `init_cube_point` returns false if and only if two
distinct minicubes `i`, `j` resolve (by `position_of`, on the orientations
`s[i] - 'A'`) to the same position; and when it returns true,
`currentorients[i] = s[i] - 'A'` and `minicubesbypos[pos(i)] = i` for every
minicube `i`. -/
theorem init_cube_point_fails_iff (s : List Int) (hs : valid_cube_point_chars s = true) :
    ((init_cube_point s).1 = false ↔
      ∃ i j : Nat, i < 20 ∧ j < 20 ∧ i ≠ j ∧
        position_of i (rd s i - 65) = position_of j (rd s j - 65)) ∧
    ((init_cube_point s).1 = true →
      ∀ i : Nat, i < 20 →
        rd (init_cube_point s).2.1 i = rd s i - 65 ∧
        rd (init_cube_point s).2.2 (position_of i (rd s i - 65)) = i) := by
  have hco := init_orients_valid s hs
  obtain ⟨h1, h2⟩ := init_loop_spec _ hco
  have hnd : ((List.range 20).map
        (fun (i : Nat) => position_of i (rd (init_cube_point s).2.1 i))).Nodup ↔
      ∀ i : Nat, i < 20 → ∀ j : Nat, j < 20 →
        position_of i (rd s i - 65) = position_of j (rd s j - 65) → i = j := by
    rw [List.nodup_map_iff_inj_on (List.nodup_range 20)]
    constructor
    · intro h i hi j hj e
      refine h i (List.mem_range.mpr hi) j (List.mem_range.mpr hj) ?_
      rw [rd_init_orients s i hi, rd_init_orients s j hj]
      exact e
    · intro h i hi j hj e
      have hi2 := List.mem_range.mp hi
      have hj2 := List.mem_range.mp hj
      rw [rd_init_orients s i hi2, rd_init_orients s j hj2] at e
      exact h i hi2 j hj2 e
  constructor
  · have e : (init_cube_point s).1 = false ↔ ¬ (init_cube_point s).1 = true := by
      cases (init_cube_point s).1 <;> simp
    rw [e]
    have h1' : (init_cube_point s).1 = true ↔ _ := h1
    rw [h1', hnd]
    constructor
    · intro h
      by_contra hne
      apply h
      intro i hi j hj e
      by_contra hij
      exact hne ⟨i, j, hi, hj, hij, e⟩
    · rintro ⟨i, j, hi, hj, hij, e⟩ h
      exact hij (h i hi j hj e)
  · intro ht i hi
    have := (h2 ht).2 i hi
    rw [rd_init_orients s i hi] at this
    exact ⟨rd_init_orients s i hi, this⟩

/-- C5 on "BAAAAAAAAAAAAAAAAAAA", where minicubes 0 and 5 both resolve to
position 5: `init_cube_point` returns false. -/
theorem init_cube_point_fails_iff_witness :
    valid_cube_point_chars clashing_point = true ∧
    (init_cube_point clashing_point).1 = false :=
  ⟨by decide,
    (init_cube_point_fails_iff clashing_point (by decide)).1.mpr
      ⟨0, 5, by decide, by decide, by decide, by decide⟩⟩

/-! ## The input translator -/

theorem int_wrap_consts :
    int_wrap 0 = 0 ∧ int_wrap 1 = 1 ∧ int_wrap (-1) = -1 ∧ int_wrap 2 = 2 ∧
      int_wrap 2147483648 = -2147483648 := by
  decide

theorem int_wrap_of_range (x : Int) (h0 : -2147483648 ≤ x) (h1 : x ≤ 2147483647) :
    int_wrap x = x := by
  unfold int_wrap
  omega

theorem int_wrap_range (x : Int) : -2147483648 ≤ int_wrap x ∧ int_wrap x ≤ 2147483647 := by
  unfold int_wrap
  omega

theorem int_wrap_idem (x : Int) : int_wrap (int_wrap x) = int_wrap x := by
  unfold int_wrap
  omega

theorem int_wrap_add_congr (a b t : Int) (h : int_wrap a = int_wrap b) :
    int_wrap (t + a) = int_wrap (t + b) := by
  unfold int_wrap at h ⊢
  omega

theorem int_wrap_succ (x : Int) : int_wrap (int_wrap (x + 1) + 1) = int_wrap (1 + (x + 1)) := by
  unfold int_wrap
  omega

theorem action_bits :
    ((4 : Nat) ||| 2 = 6) ∧ ((6 : Nat) ||| 1 = 7) ∧ ((2 : Nat) ||| 1 = 3) ∧
    ((1 : Nat) &&& 4 = 0) ∧ ((1 : Nat) &&& 2 = 0) ∧ ((1 : Nat) &&& 1 = 1) ∧
    ((2 : Nat) &&& 4 = 0) ∧ ((2 : Nat) &&& 2 = 2) ∧ ((2 : Nat) &&& 1 = 0) ∧
    ((3 : Nat) &&& 4 = 0) ∧ ((3 : Nat) &&& 2 = 2) ∧ ((3 : Nat) &&& 1 = 1) ∧
    ((4 : Nat) &&& 4 = 4) ∧ ((4 : Nat) &&& 2 = 0) ∧ ((4 : Nat) &&& 1 = 0) ∧
    ((6 : Nat) &&& 4 = 4) ∧ ((6 : Nat) &&& 2 = 2) ∧ ((6 : Nat) &&& 1 = 0) ∧
    ((7 : Nat) &&& 4 = 4) ∧ ((7 : Nat) &&& 2 = 2) ∧ ((7 : Nat) &&& 1 = 1) := by
  decide

theorem process_newline (CC : List Int) (ST : rubik_input_state_st)
    (h10 : char_to_color CC 10 = EMPTY_COLOR) :
    process_input_char CC ST 10 =
      if ST.pendingface ≠ EMPTY_COLOR then
        if ST.savedface ≠ EMPTY_COLOR ∧ ST.savedface ≠ ST.pendingface then
          ({ ST with
              result := { times := ST.times, face := ST.savedface },
              savedface := ST.pendingface, pendingface := EMPTY_COLOR,
              times := int_wrap (0 + ST.pendingsign), pendingsign := 1,
              lastfacechr := 0, lastchr := 10 }, true)
        else
          ({ ST with
              savedface := ST.pendingface, pendingface := EMPTY_COLOR,
              times := int_wrap (ST.times + ST.pendingsign), pendingsign := 1,
              lastfacechr := 0, lastchr := 10 }, false)
      else if ST.savedface ≠ EMPTY_COLOR then
        ({ ST with
            result := { times := ST.times, face := ST.savedface },
            savedface := EMPTY_COLOR, times := 0,
            lastfacechr := 0, lastchr := 10 }, true)
      else ({ ST with lastfacechr := 0, lastchr := 10 }, false) := by
  unfold process_input_char input_action
  rw [h10]
  by_cases hp : ST.pendingface = EMPTY_COLOR
  · by_cases hs : ST.savedface = EMPTY_COLOR
    · simp [hp, hs, APOS]
    · simp [hp, hs, APOS, ROTATE_SAVED_FACE, SAVE_PENDING_FACE, SAVE_FOUND_FACE,
        rotate_saved_face, action_bits]
  · have hp2 : ¬ EMPTY_COLOR = ST.pendingface := fun h => hp h.symm
    by_cases hs : ST.savedface = EMPTY_COLOR
    · simp [hp, hp2, hs, APOS, ROTATE_SAVED_FACE, SAVE_PENDING_FACE, SAVE_FOUND_FACE,
        rotate_saved_face, save_pending_face, action_bits]
    · by_cases hsp : ST.savedface = ST.pendingface
      · simp [hp, hp2, hs, hsp, APOS, ROTATE_SAVED_FACE, SAVE_PENDING_FACE, SAVE_FOUND_FACE,
          rotate_saved_face, save_pending_face, action_bits]
      · simp [hp, hp2, hs, hsp, APOS, ROTATE_SAVED_FACE, SAVE_PENDING_FACE, SAVE_FOUND_FACE,
          rotate_saved_face, save_pending_face, action_bits]

theorem process_token (CC : List Int) (ST : rubik_input_state_st) (c : Int)
    (hf : char_to_color CC c ≠ EMPTY_COLOR) :
    process_input_char CC ST c =
      if ST.pendingface ≠ EMPTY_COLOR then
        if ST.savedface ≠ EMPTY_COLOR ∧ ST.savedface ≠ ST.pendingface then
          ({ ST with
              result := { times := ST.times, face := ST.savedface },
              savedface := ST.pendingface, pendingface := char_to_color CC c,
              times := int_wrap (0 + ST.pendingsign),
              pendingsign := if ST.lastchr = MINUS then -1 else 1,
              lastfacechr := c, lastchr := c }, true)
        else
          ({ ST with
              savedface := ST.pendingface, pendingface := char_to_color CC c,
              times := int_wrap (ST.times + ST.pendingsign),
              pendingsign := if ST.lastchr = MINUS then -1 else 1,
              lastfacechr := c, lastchr := c }, false)
      else
        ({ ST with
            pendingface := char_to_color CC c,
            pendingsign := if ST.lastchr = MINUS then -1 else ST.pendingsign,
            lastfacechr := c, lastchr := c }, false) := by
  unfold process_input_char input_action
  by_cases hm : ST.lastchr = MINUS
  · by_cases hp : ST.pendingface = EMPTY_COLOR
    · simp [hf, hp, hm, SAVE_FOUND_FACE, ROTATE_SAVED_FACE, SAVE_PENDING_FACE,
        save_found_face, action_bits]
    · have hp2 : ¬ EMPTY_COLOR = ST.pendingface := fun h => hp h.symm
      by_cases hs : ST.savedface = EMPTY_COLOR
      · simp [hf, hp, hp2, hs, hm, ROTATE_SAVED_FACE, SAVE_PENDING_FACE, SAVE_FOUND_FACE,
          rotate_saved_face, save_pending_face, save_found_face, action_bits]
      · by_cases hsp : ST.savedface = ST.pendingface
        · simp [hf, hp, hp2, hs, hsp, hm, ROTATE_SAVED_FACE, SAVE_PENDING_FACE,
            SAVE_FOUND_FACE, rotate_saved_face, save_pending_face, save_found_face,
            action_bits]
        · simp [hf, hp, hp2, hs, hsp, hm, ROTATE_SAVED_FACE, SAVE_PENDING_FACE,
            SAVE_FOUND_FACE, rotate_saved_face, save_pending_face, save_found_face,
            action_bits]
  · by_cases hp : ST.pendingface = EMPTY_COLOR
    · simp [hf, hp, hm, SAVE_FOUND_FACE, ROTATE_SAVED_FACE, SAVE_PENDING_FACE,
        save_found_face, action_bits]
    · have hp2 : ¬ EMPTY_COLOR = ST.pendingface := fun h => hp h.symm
      by_cases hs : ST.savedface = EMPTY_COLOR
      · simp [hf, hp, hp2, hs, hm, ROTATE_SAVED_FACE, SAVE_PENDING_FACE, SAVE_FOUND_FACE,
          rotate_saved_face, save_pending_face, save_found_face, action_bits]
      · by_cases hsp : ST.savedface = ST.pendingface
        · simp [hf, hp, hp2, hs, hsp, hm, ROTATE_SAVED_FACE, SAVE_PENDING_FACE,
            SAVE_FOUND_FACE, rotate_saved_face, save_pending_face, save_found_face,
            action_bits]
        · simp [hf, hp, hp2, hs, hsp, hm, ROTATE_SAVED_FACE, SAVE_PENDING_FACE,
            SAVE_FOUND_FACE, rotate_saved_face, save_pending_face, save_found_face,
            action_bits]

theorem process_apos (CC : List Int) (ST : rubik_input_state_st)
    (h39 : char_to_color CC 39 = EMPTY_COLOR) :
    process_input_char CC ST 39 =
      ({ ST with
          pendingsign := if ST.lastchr = ST.lastfacechr then -1 else ST.pendingsign,
          lastfacechr := 0, lastchr := 39 }, false) := by
  unfold process_input_char input_action
  by_cases h : ST.lastchr = ST.lastfacechr <;> simp [h39, h, APOS]

theorem process_other (CC : List Int) (ST : rubik_input_state_st) (c : Int)
    (hc : char_to_color CC c = EMPTY_COLOR) (h39 : c ≠ 39) (h10 : c ≠ 10) :
    process_input_char CC ST c = ({ ST with lastfacechr := 0, lastchr := c }, false) := by
  unfold process_input_char input_action
  simp [hc, h39, h10, APOS]

theorem strchr_none_iff (s : List Int) (c : Int) : strchr s c = none ↔ c ∉ s ∧ c ≠ 0 := by
  induction s with
  | nil => simp [strchr]
  | cons x s ih =>
    unfold strchr
    by_cases h : x = c
    · simp [h]
    · have h2 : ¬ c = x := fun e => h e.symm
      simp [h, h2, ih]

theorem char_to_color_empty_iff (CC : List Int) (c : Int) :
    char_to_color CC c = EMPTY_COLOR ↔ c ∉ CC ∧ c ≠ 0 := by
  unfold char_to_color
  rw [← strchr_none_iff]
  cases h : strchr CC c with
  | none => simp
  | some p =>
    simp only [reduceCtorEq, iff_false]
    unfold EMPTY_COLOR
    omega

theorem valid_color_chars_spec (arg : List Int) (h : valid_color_chars arg = true) :
    arg.length = 6 ∧ ∀ c ∈ arg, (33 ≤ c ∧ c ≤ 126) ∧ c ≠ 39 ∧ c ≠ 45 := by
  unfold valid_color_chars at h
  split at h
  · exact absurd h (by simp)
  · rename_i hany
    split at h
    · exact absurd h (by simp)
    · rename_i hlen
      refine ⟨by simpa using hlen, ?_⟩
      intro c hc
      obtain ⟨k, hk, rfl⟩ := exists_rd_of_mem arg c hc
      simp only [List.any_eq_true, not_exists, not_and] at hany
      have := hany k (List.mem_range.mpr hk)
      simp only [isgraph, APOS, MINUS, Bool.or_eq_true, Bool.not_eq_true', decide_eq_false_iff_not,
        decide_eq_true_eq, not_or, not_not] at this
      exact ⟨this.1.1.1, this.1.1.2, this.1.2⟩

/-- What an alphabet accepted by `valid_color_chars` gives the translator: the
apostrophe, the minus and the line feed are not colors. -/
theorem valid_color_chars_others (CC : List Int) (h : valid_color_chars CC = true) :
    char_to_color CC 39 = EMPTY_COLOR ∧ char_to_color CC 45 = EMPTY_COLOR ∧
      char_to_color CC 10 = EMPTY_COLOR := by
  obtain ⟨_, hc⟩ := valid_color_chars_spec CC h
  refine ⟨?_, ?_, ?_⟩ <;> rw [char_to_color_empty_iff] <;>
    refine ⟨fun hm => ?_, by decide⟩
  · exact (hc _ hm).2.1 rfl
  · exact (hc _ hm).2.2 rfl
  · have := (hc _ hm).1.1
    omega

theorem valid_color_chars_token (CC : List Int) (h : valid_color_chars CC = true) (c : Int)
    (hc : c ∈ CC) : char_to_color CC c ≠ EMPTY_COLOR ∧ c ≠ 45 ∧ c ≠ 39 ∧ c ≠ 10 ∧ c ≠ 0 := by
  obtain ⟨_, hs⟩ := valid_color_chars_spec CC h
  have := hs c hc
  refine ⟨?_, this.2.2, this.2.1, by omega, by omega⟩
  intro e
  exact ((char_to_color_empty_iff CC c).mp e).1 hc

theorem emitted_moves_cons (CC : List Int) (ST : rubik_input_state_st) (c : Int)
    (cs : List Int) :
    emitted_moves CC ST (c :: cs)
      = ((emitted_moves CC (process_input_char CC ST c).1 cs).1,
          if (process_input_char CC ST c).2 then
            (process_input_char CC ST c).1.result ::
              (emitted_moves CC (process_input_char CC ST c).1 cs).2
          else (emitted_moves CC (process_input_char CC ST c).1 cs).2) := rfl

theorem prepend_run_same (face : Int) (a b : Int) (rs : List rubik_move_st) :
    prepend_run face a (prepend_run face b rs) = prepend_run face (b + a) rs := by
  cases rs with
  | nil => simp [prepend_run]
  | cons r rs =>
    by_cases h : r.face = face
    · simp [prepend_run, h, add_assoc]
    · simp [prepend_run, h]

theorem prepend_run_other (f g : Int) (h : g ≠ f) (a b : Int) (rs : List rubik_move_st) :
    prepend_run f a (prepend_run g b rs)
      = { times := a, face := f } :: prepend_run g b rs := by
  cases rs with
  | nil => simp [prepend_run, h]
  | cons r rs =>
    by_cases h2 : r.face = g
    · simp [prepend_run, h, h2]
    · simp [prepend_run, h, h2]

theorem map_wrap_prepend_congr (face : Int) (a b : Int) (h : int_wrap a = int_wrap b)
    (rs : List rubik_move_st) :
    (prepend_run face a rs).map wrap_times = (prepend_run face b rs).map wrap_times := by
  cases rs with
  | nil => simp [prepend_run, wrap_times, h]
  | cons r rs =>
    by_cases hr : r.face = face
    · simp [prepend_run, wrap_times, hr, int_wrap_add_congr a b r.times h]
    · simp [prepend_run, wrap_times, hr, h]

/-- The moves emitted for the tokens `w` and two line feeds, from a state
with a pending face: the runs of the tokens, counted by the `int`
accumulator. -/
theorem emitted_moves_tokens (CC : List Int) (h10 : char_to_color CC 10 = EMPTY_COLOR) :
    ∀ (w : List Int) (ST : rubik_input_state_st),
      (∀ c ∈ w, char_to_color CC c ≠ EMPTY_COLOR ∧ c ≠ 45) →
      ST.pendingface ≠ EMPTY_COLOR → ST.pendingsign = 1 → ST.lastchr ≠ 45 →
      (ST.savedface = EMPTY_COLOR → ST.times = 0) →
      int_wrap ST.times = ST.times →
      (emitted_moves CC ST (w ++ [10, 10])).2
        = (if ST.savedface = EMPTY_COLOR ∨ ST.savedface = ST.pendingface then
            prepend_run ST.pendingface (ST.times + 1) (run_length_moves CC w)
          else
            { times := ST.times, face := ST.savedface } ::
              prepend_run ST.pendingface 1 (run_length_moves CC w)).map wrap_times := by
  intro w
  induction w with
  | nil =>
    intro ST _ hp hs hl ht hr
    obtain ⟨ps, tm, lc, lfc, pf, sf, res⟩ := ST
    simp only at hp hs hl ht hr
    subst hs
    have hp2 : ¬ EMPTY_COLOR = pf := fun h => hp h.symm
    simp only [List.nil_append, emitted_moves_cons, process_newline CC _ h10, emitted_moves,
      run_length_moves, prepend_run]
    by_cases hse : sf = EMPTY_COLOR
    · have := ht hse
      subst this
      simp [hse, hp, hp2, wrap_times]
    · by_cases hsp : sf = pf
      · simp [hse, hsp, hp, wrap_times]
      · simp [hse, hsp, hp, wrap_times, hr, int_wrap_consts]
  | cons c w ih =>
    intro ST hw hp hs hl ht hr
    obtain ⟨hc, hc45⟩ := hw c (List.mem_cons_self _ _)
    have hw2 : ∀ d ∈ w, char_to_color CC d ≠ EMPTY_COLOR ∧ d ≠ 45 :=
      fun d hd => hw d (List.mem_cons_of_mem _ hd)
    obtain ⟨ps, tm, lc, lfc, pf, sf, res⟩ := ST
    simp only at hp hs hl ht hr
    subst hs
    have hp2 : ¬ EMPTY_COLOR = pf := fun h => hp h.symm
    have hl2 : ¬ lc = MINUS := hl
    rw [List.cons_append, emitted_moves_cons, process_token CC _ c hc]
    simp only [run_length_moves]
    by_cases hse : sf = EMPTY_COLOR
    · have := ht hse
      subst this
      simp only [hse, hp, hp2, hl2, ne_eq, not_true_eq_false, false_and, not_false_eq_true,
        if_true, if_false, true_or]
      rw [ih _ hw2 hc rfl hc45 (fun h => absurd h hp) (int_wrap_idem _)]
      simp only [hp, false_or]
      by_cases hpc : pf = char_to_color CC c
      · simp only [hpc, if_true, prepend_run_same, Bool.false_eq_true, if_false]
        exact map_wrap_prepend_congr _ _ _ (int_wrap_succ 0) _
      · simp [hpc, prepend_run_other _ _ (fun h => hpc h.symm), wrap_times, int_wrap_idem]
    · by_cases hsp : sf = pf
      · simp only [hse, hsp, hp, hp2, hl2, ne_eq, not_true_eq_false, and_false,
          not_false_eq_true, if_true, if_false, or_true]
        rw [ih _ hw2 hc rfl hc45 (fun h => absurd h hp) (int_wrap_idem _)]
        simp only [hp, false_or]
        by_cases hpc : pf = char_to_color CC c
        · simp only [hpc, if_true, prepend_run_same, Bool.false_eq_true, if_false]
          exact map_wrap_prepend_congr _ _ _ (int_wrap_succ tm) _
        · simp [hpc, prepend_run_other _ _ (fun h => hpc h.symm), wrap_times, int_wrap_idem]
      · simp only [hse, hsp, hp, hp2, hl2, ne_eq, not_false_eq_true, and_self, if_true,
          if_false, or_self]
        rw [ih _ hw2 hc rfl hc45 (fun h => absurd h hp) (int_wrap_idem _)]
        simp only [hp, false_or]
        by_cases hpc : pf = char_to_color CC c
        · simp only [hpc, if_true, prepend_run_same, List.map_cons, List.cons.injEq]
          refine ⟨by simp [wrap_times, hr], ?_⟩
          exact map_wrap_prepend_congr _ _ _ (int_wrap_succ 0) _
        · simp [hpc, prepend_run_other _ _ (fun h => hpc h.symm), wrap_times, int_wrap_idem,
            hr, int_wrap_consts]

theorem default_color (c : Int) (hc : c ∈ COLOR_CHARS_DEFAULT) :
    char_to_color COLOR_CHARS_DEFAULT c = c - 49 := by
  simp only [COLOR_CHARS_DEFAULT, List.mem_cons, List.mem_singleton, List.not_mem_nil,
    or_false] at hc
  rcases hc with rfl | rfl | rfl | rfl | rfl | rfl <;> decide

theorem default_token (c : Int) (hc : c ∈ COLOR_CHARS_DEFAULT) :
    char_to_color COLOR_CHARS_DEFAULT c ≠ EMPTY_COLOR ∧ c ≠ 45 := by
  have h := valid_color_chars_token COLOR_CHARS_DEFAULT (by decide) c hc
  exact ⟨h.1, h.2.1⟩

theorem token_runs_head (c : Int) (w : List Int) (d n : Int) (rest : List (Int × Int))
    (h : token_runs (c :: w) = (d, n) :: rest) : d = c := by
  unfold token_runs at h
  split at h
  · simp at h; exact h.1.1.symm
  · split at h <;> simp at h <;> exact h.1.1.symm

theorem run_length_moves_eq (w : List Int) (hw : ∀ c ∈ w, c ∈ COLOR_CHARS_DEFAULT) :
    run_length_moves COLOR_CHARS_DEFAULT w
      = (token_runs w).map (fun r =>
          ({ times := r.2, face := char_to_color COLOR_CHARS_DEFAULT r.1 } : rubik_move_st)) := by
  induction w with
  | nil => rfl
  | cons c w ih =>
    have hc := hw c (List.mem_cons_self _ _)
    rw [run_length_moves, ih (fun d hd => hw d (List.mem_cons_of_mem _ hd))]
    cases hr : token_runs w with
    | nil => simp [token_runs, hr, prepend_run]
    | cons r rest =>
      obtain ⟨d, n⟩ := r
      have hd : d ∈ COLOR_CHARS_DEFAULT := by
        cases w with
        | nil => simp [token_runs] at hr
        | cons e w2 =>
          rw [token_runs_head e w2 d n rest hr]
          exact hw e (List.mem_cons_of_mem _ (List.mem_cons_self _ _))
      by_cases hcd : c = d
      · subst hcd
        simp [token_runs, hr, prepend_run]
      · have hne : ¬ char_to_color COLOR_CHARS_DEFAULT d = char_to_color COLOR_CHARS_DEFAULT c := by
          rw [default_color c hc, default_color d hd]
          omega
        simp [token_runs, hr, prepend_run, hcd, hne]

theorem token_runs_pos : ∀ (w : List Int), ∀ r ∈ token_runs w, 1 ≤ r.2 := by
  intro w
  induction w with
  | nil => intro r hr; simp [token_runs] at hr
  | cons c w ih =>
    intro r hr
    unfold token_runs at hr
    split at hr
    · simp only [List.mem_singleton] at hr
      rw [hr]
    · rename_i d n rest hd
      have hdn : 1 ≤ n := ih (d, n) (by rw [hd]; exact List.mem_cons_self _ _)
      have hrest : ∀ x ∈ rest, 1 ≤ x.2 :=
        fun x hx => ih x (by rw [hd]; exact List.mem_cons_of_mem _ hx)
      split at hr
      · rcases List.mem_cons.mp hr with e | e
        · rw [e]
          show 1 ≤ n + 1
          omega
        · exact hrest r e
      · rcases List.mem_cons.mp hr with e | e
        · rw [e]
        · rcases List.mem_cons.mp e with e2 | e2
          · rw [e2]; exact hdn
          · exact hrest r e2

theorem token_runs_replicate (c : Int) :
    ∀ n : Nat, token_runs (List.replicate (n + 1) c) = [(c, (n : Int) + 1)] := by
  intro n
  induction n with
  | zero => simp [List.replicate, token_runs]
  | succ n ih =>
    rw [List.replicate_succ, token_runs, ih]
    simp only [if_true]
    push_cast
    rfl

/-- The moves emitted for a non-empty sequence of tokens of the default
alphabet and two line feeds: one move per maximal run, its length as counted
by the `int` accumulator. -/
theorem emitted_moves_runs (ST : rubik_input_state_st) (w : List Int) (hne : w ≠ [])
    (hw : ∀ c ∈ w, c ∈ COLOR_CHARS_DEFAULT) :
    (emitted_moves COLOR_CHARS_DEFAULT (init_input_state ST) (w ++ [10, 10])).2
      = (token_runs w).map (fun r =>
          ({ times := int_wrap r.2, face := char_to_color COLOR_CHARS_DEFAULT r.1 } :
            rubik_move_st)) := by
  have e : (token_runs w).map (fun r =>
        ({ times := int_wrap r.2, face := char_to_color COLOR_CHARS_DEFAULT r.1 } :
          rubik_move_st))
      = (run_length_moves COLOR_CHARS_DEFAULT w).map wrap_times := by
    rw [run_length_moves_eq w hw, List.map_map]
    rfl
  rw [e]
  cases w with
  | nil => exact absurd rfl hne
  | cons c w =>
    have hc := default_token c (hw c (List.mem_cons_self _ _))
    have h10 := (valid_color_chars_others COLOR_CHARS_DEFAULT (by decide)).2.2
    rw [List.cons_append, emitted_moves_cons, process_token _ _ c hc.1]
    simp only [init_input_state, ne_eq, not_true_eq_false, if_false, MINUS]
    rw [emitted_moves_tokens COLOR_CHARS_DEFAULT h10 w _
      (fun d hd => default_token d (hw d (List.mem_cons_of_mem _ hd))) hc.1
      (by simp) hc.2 (fun _ => rfl) int_wrap_consts.1]
    simp [run_length_moves]

/-- C6 as stated fails on a run of 2^31 tokens: with the default alphabet,
2147483648 times the token 1 and two line feeds emit one move whose `times`
is -2147483648, the `int` accumulator having overflowed, and not the length
2147483648 of the run. -/
theorem same_face_coalescing_counterexample :
    ¬ ((emitted_moves COLOR_CHARS_DEFAULT (init_input_state ST_static)
          (List.replicate 2147483648 49 ++ [10, 10])).2
        = (token_runs (List.replicate 2147483648 49)).map (fun r =>
            ({ times := r.2, face := char_to_color COLOR_CHARS_DEFAULT r.1 } :
              rubik_move_st))) := by
  have hr : token_runs (List.replicate 2147483648 (49 : Int)) = [(49, 2147483648)] :=
    token_runs_replicate 49 2147483647
  have hne : List.replicate 2147483648 (49 : Int) ≠ [] := by
    intro h
    rw [h] at hr
    simp [token_runs] at hr
  have hw : ∀ c ∈ List.replicate 2147483648 (49 : Int), c ∈ COLOR_CHARS_DEFAULT := by
    intro c hc
    rw [List.eq_of_mem_replicate hc]
    decide
  rw [emitted_moves_runs ST_static _ hne hw, hr]
  simp only [List.map_cons, List.map_nil, int_wrap_consts]
  decide

/-- C6, amended. Same-face coalescing as run-length encoding: from the state
set by `init_input_state`, with the default alphabet "123456", feeding a
non-empty sequence `w` of face tokens whose maximal runs have at most
2147483647 tokens each, one character at a time, and then the line feed twice
emits exactly one move per maximal run of equal tokens of `w`, in order, each
with the face denoted by the token and `times` the length of the run. -/
theorem same_face_coalescing (ST : rubik_input_state_st) (w : List Int) (hne : w ≠ [])
    (hw : ∀ c ∈ w, c ∈ COLOR_CHARS_DEFAULT)
    (hb : ∀ r ∈ token_runs w, r.2 ≤ 2147483647) :
    (emitted_moves COLOR_CHARS_DEFAULT (init_input_state ST) (w ++ [10, 10])).2
      = (token_runs w).map (fun r =>
          ({ times := r.2, face := char_to_color COLOR_CHARS_DEFAULT r.1 } : rubik_move_st)) := by
  rw [emitted_moves_runs ST w hne hw]
  apply List.map_congr_left
  intro r hr
  have h1 := token_runs_pos w r hr
  rw [int_wrap_of_range r.2 (by omega) (hb r hr)]

/-- C6 amended, on the two inputs of the specification: "11" emits one move
(face of the token 1, times 2) and "12" two moves (face of 1, then face of 2,
once each). -/
theorem same_face_coalescing_witness :
    (emitted_moves COLOR_CHARS_DEFAULT (init_input_state ST_static) ([49, 49] ++ [10, 10])).2
      = [{ times := 2, face := 0 }] ∧
    (emitted_moves COLOR_CHARS_DEFAULT (init_input_state ST_static) ([49, 50] ++ [10, 10])).2
      = [{ times := 1, face := 0 }, { times := 1, face := 1 }] :=
  ⟨(same_face_coalescing ST_static [49, 49] (by decide) (by decide) (by decide)).trans
      (by decide),
    (same_face_coalescing ST_static [49, 50] (by decide) (by decide) (by decide)).trans
      (by decide)⟩

/-- C7 as stated fails: with the default alphabet, the token 3 followed by two
apostrophes and two line feeds emits the face of 3 with `times = -1`, not the
move `times = +1` emitted for the token 3 and two line feeds. -/
theorem double_negation_counterexample :
    ¬ ((emitted_moves COLOR_CHARS_DEFAULT (init_input_state ST_static) [51, 39, 39, 10, 10]).2
        = (emitted_moves COLOR_CHARS_DEFAULT (init_input_state ST_static) [51, 10, 10]).2 ∧
      (emitted_moves COLOR_CHARS_DEFAULT (init_input_state ST_static) [51, 39, 39, 10, 10]).2
        = [{ times := 1, face := 2 }]) := by
  decide

/-- C7, amended. A second apostrophe changes nothing: for every alphabet
accepted by `valid_color_chars` and every face token `N` of it, from the
initial state, `N` followed by two apostrophes and two line feeds emits the
same single move as `N` followed by one apostrophe and two line feeds, namely
the face denoted by `N` with `times = -1`; `N` followed by two line feeds
emits that face with `times = +1`. -/
theorem second_apostrophe_no_effect (CC : List Int) (hCC : valid_color_chars CC = true)
    (ST : rubik_input_state_st) (N : Int) (hN : N ∈ CC) :
    (emitted_moves CC (init_input_state ST) [N, 39, 39, 10, 10]).2
      = (emitted_moves CC (init_input_state ST) [N, 39, 10, 10]).2 ∧
    (emitted_moves CC (init_input_state ST) [N, 39, 39, 10, 10]).2
      = [{ times := -1, face := char_to_color CC N }] ∧
    (emitted_moves CC (init_input_state ST) [N, 10, 10]).2
      = [{ times := 1, face := char_to_color CC N }] := by
  obtain ⟨h39, h45, h10⟩ := valid_color_chars_others CC hCC
  obtain ⟨hf, n45, n39, n10, n0⟩ := valid_color_chars_token CC hCC N hN
  have hf2 : ¬ EMPTY_COLOR = char_to_color CC N := fun h => hf h.symm
  refine ⟨?_, ?_, ?_⟩ <;>
    simp [emitted_moves, process_token CC _ N hf, process_apos CC _ h39,
      process_newline CC _ h10, init_input_state, MINUS, hf, hf2, n39, n0, int_wrap_consts]

/-- C7 amended, on the token 3 of the default alphabet. -/
theorem second_apostrophe_no_effect_witness :
    (valid_color_chars COLOR_CHARS_DEFAULT = true ∧ (51 : Int) ∈ COLOR_CHARS_DEFAULT) ∧
    (emitted_moves COLOR_CHARS_DEFAULT (init_input_state ST_static) [51, 39, 39, 10, 10]).2
      = [{ times := -1, face := char_to_color COLOR_CHARS_DEFAULT 51 }] :=
  ⟨⟨by decide, by decide⟩,
    (second_apostrophe_no_effect COLOR_CHARS_DEFAULT (by decide) ST_static 51
      (by decide)).2.1⟩

/-- C8. Negation as the help text documents it: for every alphabet accepted by
`valid_color_chars` and every face token `N` of it, from the initial state,
each of the inputs `-N`, `N'`, `--N`, `N''` and `-N'` followed by two line
feeds emits exactly one move, the face denoted by `N` with `times = -1`. -/
theorem negation_documented (CC : List Int) (hCC : valid_color_chars CC = true)
    (ST : rubik_input_state_st) (N : Int) (hN : N ∈ CC) :
    (emitted_moves CC (init_input_state ST) [45, N, 10, 10]).2
      = [{ times := -1, face := char_to_color CC N }] ∧
    (emitted_moves CC (init_input_state ST) [N, 39, 10, 10]).2
      = [{ times := -1, face := char_to_color CC N }] ∧
    (emitted_moves CC (init_input_state ST) [45, 45, N, 10, 10]).2
      = [{ times := -1, face := char_to_color CC N }] ∧
    (emitted_moves CC (init_input_state ST) [N, 39, 39, 10, 10]).2
      = [{ times := -1, face := char_to_color CC N }] ∧
    (emitted_moves CC (init_input_state ST) [45, N, 39, 10, 10]).2
      = [{ times := -1, face := char_to_color CC N }] := by
  obtain ⟨h39, h45, h10⟩ := valid_color_chars_others CC hCC
  obtain ⟨hf, n45, n39, n10, n0⟩ := valid_color_chars_token CC hCC N hN
  have hf2 : ¬ EMPTY_COLOR = char_to_color CC N := fun h => hf h.symm
  refine ⟨?_, ?_, ?_, ?_, ?_⟩ <;>
    simp [emitted_moves, process_token CC _ N hf, process_apos CC _ h39,
      process_newline CC _ h10, process_other CC _ 45 h45 (by decide) (by decide),
      init_input_state, MINUS, hf, hf2, n39, n0, int_wrap_consts]

/-- C8 on the token 4 of the default alphabet, entered as `-4`. -/
theorem negation_documented_witness :
    (valid_color_chars COLOR_CHARS_DEFAULT = true ∧ (52 : Int) ∈ COLOR_CHARS_DEFAULT) ∧
    (emitted_moves COLOR_CHARS_DEFAULT (init_input_state ST_static) [45, 52, 10, 10]).2
      = [{ times := -1, face := char_to_color COLOR_CHARS_DEFAULT 52 }] :=
  ⟨⟨by decide, by decide⟩,
    (negation_documented COLOR_CHARS_DEFAULT (by decide) ST_static 52 (by decide)).1⟩

theorem process_keeps_times (CC : List Int) (ST : rubik_input_state_st) (c : Int)
    (h : ST.savedface = EMPTY_COLOR → ST.times = 0) :
    (process_input_char CC ST c).1.savedface = EMPTY_COLOR →
      (process_input_char CC ST c).1.times = 0 := by
  by_cases hf : char_to_color CC c = EMPTY_COLOR
  · by_cases h39 : c = 39
    · subst h39
      rw [process_apos CC ST hf]
      exact h
    · by_cases h10 : c = 10
      · subst h10
        rw [process_newline CC ST hf]
        by_cases hp : ST.pendingface = EMPTY_COLOR
        · by_cases hs : ST.savedface = EMPTY_COLOR
          · simp [hp, hs, h hs]
          · simp [hp, hs]
        · intro hsave
          exfalso
          rw [if_pos hp] at hsave
          split at hsave <;> exact hp hsave
      · rw [process_other CC ST c hf h39 h10]
        exact h
  · rw [process_token CC ST c hf]
    by_cases hp : ST.pendingface = EMPTY_COLOR
    · simp only [hp, ne_eq, not_true_eq_false, if_false]
      exact h
    · intro hsave
      exfalso
      rw [if_pos hp] at hsave
      split at hsave <;> exact hp hsave

theorem emitted_keeps_times (CC : List Int) :
    ∀ (cs : List Int) (ST : rubik_input_state_st),
      (ST.savedface = EMPTY_COLOR → ST.times = 0) →
      (emitted_moves CC ST cs).1.savedface = EMPTY_COLOR →
        (emitted_moves CC ST cs).1.times = 0 := by
  intro cs
  induction cs with
  | nil => intro ST h; exact h
  | cons c cs ih =>
    intro ST h
    rw [emitted_moves_cons]
    exact ih _ (process_keeps_times CC ST c h)

/-- C9. Two terminators flush everything: in every state `ST` reached from
`init_input_state` by feeding any characters (alphabet accepted by
`valid_color_chars`), two line feeds in succession leave `pendingface` and
`savedface` empty and `times = 0`.  With a face pending, the first line feed
commits it into the accumulator (the sum `ST.times += ST.pendingsign` as the
`int` holds it, `int_wrap`), emitting the move accumulated before exactly
when its face is another one, and the second line feed emits the accumulated
move; with no face pending and an accumulator active, the first line feed
alone emits it. -/
theorem two_terminators_flush (CC : List Int) (hCC : valid_color_chars CC = true)
    (ST0 : rubik_input_state_st) (cs : List Int) (ST : rubik_input_state_st)
    (hST : ST = (emitted_moves CC (init_input_state ST0) cs).1) :
    ((process_input_char CC (process_input_char CC ST 10).1 10).1.pendingface = EMPTY_COLOR ∧
      (process_input_char CC (process_input_char CC ST 10).1 10).1.savedface = EMPTY_COLOR ∧
      (process_input_char CC (process_input_char CC ST 10).1 10).1.times = 0) ∧
    (ST.pendingface ≠ EMPTY_COLOR →
      (process_input_char CC ST 10).1.pendingface = EMPTY_COLOR ∧
      (process_input_char CC ST 10).1.savedface = ST.pendingface ∧
      (process_input_char CC ST 10).1.times
        = int_wrap ((if ST.savedface = ST.pendingface then ST.times else 0)
            + ST.pendingsign) ∧
      ((process_input_char CC ST 10).2 = true ↔
        (ST.savedface ≠ EMPTY_COLOR ∧ ST.savedface ≠ ST.pendingface)) ∧
      ((process_input_char CC ST 10).2 = true →
        (process_input_char CC ST 10).1.result
          = { times := ST.times, face := ST.savedface }) ∧
      (process_input_char CC (process_input_char CC ST 10).1 10).2 = true ∧
      (process_input_char CC (process_input_char CC ST 10).1 10).1.result
        = { times := (process_input_char CC ST 10).1.times, face := ST.pendingface }) ∧
    (ST.pendingface = EMPTY_COLOR → ST.savedface ≠ EMPTY_COLOR →
      (process_input_char CC ST 10).2 = true ∧
      (process_input_char CC ST 10).1.result
        = { times := ST.times, face := ST.savedface } ∧
      (process_input_char CC (process_input_char CC ST 10).1 10).2 = false) := by
  have h10 := (valid_color_chars_others CC hCC).2.2
  have hinv : ST.savedface = EMPTY_COLOR → ST.times = 0 := by
    rw [hST]
    exact emitted_keeps_times CC cs _ (fun _ => rfl)
  clear hST
  obtain ⟨ps, tm, lc, lfc, pf, sf, res⟩ := ST
  simp only at hinv
  simp only [process_newline CC _ h10]
  by_cases hp : pf = EMPTY_COLOR
  · by_cases hs : sf = EMPTY_COLOR
    · simp [hp, hs, hinv hs]
    · simp [hp, hs]
  · have hp2 : ¬ EMPTY_COLOR = pf := fun h => hp h.symm
    by_cases hs : sf = EMPTY_COLOR
    · simp [hp, hp2, hs, hinv hs]
    · by_cases hsp : sf = pf
      · simp [hp, hp2, hs, hsp]
      · simp [hp, hp2, hs, hsp]

/-- C9 after the input "12" with the default alphabet: face 1 is pending and
face 0 accumulated, so the first line feed emits face 0 and the second one
face 1. -/
theorem two_terminators_flush_witness :
    (valid_color_chars COLOR_CHARS_DEFAULT = true ∧
      (emitted_moves COLOR_CHARS_DEFAULT (init_input_state ST_static) [49, 50]).1.pendingface
        ≠ EMPTY_COLOR) ∧
    (process_input_char COLOR_CHARS_DEFAULT
      (emitted_moves COLOR_CHARS_DEFAULT (init_input_state ST_static) [49, 50]).1 10).2 = true ∧
    (process_input_char COLOR_CHARS_DEFAULT (process_input_char COLOR_CHARS_DEFAULT
      (emitted_moves COLOR_CHARS_DEFAULT (init_input_state ST_static) [49, 50]).1 10).1 10).2
        = true :=
  ⟨⟨by decide, by decide⟩,
    ((two_terminators_flush COLOR_CHARS_DEFAULT (by decide) ST_static [49, 50] _ rfl).2.1
      (by decide)).2.2.2.1.mpr (by decide),
    ((two_terminators_flush COLOR_CHARS_DEFAULT (by decide) ST_static [49, 50] _ rfl).2.1
      (by decide)).2.2.2.2.2.1⟩

/-- C10 fails on the NUL character: it is none of the six characters of the
default alphabet, not the apostrophe and not the line feed, yet
`char_to_color` gives it the color 6 (`strchr` finds the terminating NUL of
`COLOR_CHARS`), so that `process_input_char` takes it for a face token and
changes `pendingface` from empty to 6 instead of ignoring it. -/
theorem process_input_char_nul :
    ((0 : Int) ∉ COLOR_CHARS_DEFAULT ∧ (0 : Int) ≠ APOS ∧ (0 : Int) ≠ 10) ∧
    char_to_color COLOR_CHARS_DEFAULT 0 = 6 ∧
    (init_input_state ST_static).pendingface = EMPTY_COLOR ∧
    (process_input_char COLOR_CHARS_DEFAULT (init_input_state ST_static) 0).1.pendingface = 6 ∧
    (emitted_moves COLOR_CHARS_DEFAULT (init_input_state ST_static) [0, 10, 10]).2
      = [{ times := 1, face := 6 }] := by
  decide

/-- What C10 says holds for every character but NUL: a character that is not
in the alphabet, not NUL, not the apostrophe and not the line feed makes
`process_input_char` return false and change only `lastchr`, which becomes the
character, and `lastfacechr`, which is cleared. -/
theorem process_input_char_unrecognized (CC : List Int) (ST : rubik_input_state_st) (c : Int)
    (hc : c ∉ CC) (h0 : c ≠ 0) (h39 : c ≠ APOS) (h10 : c ≠ 10) :
    process_input_char CC ST c = ({ ST with lastfacechr := 0, lastchr := c }, false) :=
  process_other CC ST c ((char_to_color_empty_iff CC c).mpr ⟨hc, h0⟩) h39 h10

/-- The character `x` of the input "x" is ignored with the default alphabet. -/
theorem process_input_char_unrecognized_witness :
    ((120 : Int) ∉ COLOR_CHARS_DEFAULT ∧ (120 : Int) ≠ 0 ∧ (120 : Int) ≠ APOS ∧
      (120 : Int) ≠ 10) ∧
    process_input_char COLOR_CHARS_DEFAULT (init_input_state ST_static) 120
      = ({ init_input_state ST_static with lastfacechr := 0, lastchr := 120 }, false) :=
  ⟨⟨by decide, by decide, by decide, by decide⟩,
    process_input_char_unrecognized COLOR_CHARS_DEFAULT (init_input_state ST_static) 120
      (by decide) (by decide) (by decide) (by decide)⟩

/-! ## Encoding and validation -/

/-- C11. Encoding round trip: for every string `s` that
`valid_cube_point_chars` accepts and on which `init_cube_point` succeeds, the
string built by `print_cube_point` from the resulting `currentorients` equals
`s` character for character. -/
theorem print_cube_point_round_trip (s : List Int) (hs : valid_cube_point_chars s = true)
    (_hi : (init_cube_point s).1 = true) :
    print_cube_point (init_cube_point s).2.1 = s := by
  obtain ⟨hl, _⟩ := (valid_cube_point_chars_iff s).mp hs
  apply ext_rd
  · simp [print_cube_point, NMINICUBES, hl]
  · intro k hk
    have hk2 : k < 20 := by simpa [print_cube_point, NMINICUBES] using hk
    unfold print_cube_point NMINICUBES
    rw [rd_map_range 20 (fun (i : Nat) => rd (init_cube_point s).2.1 i + 65) k hk2]
    show rd (init_cube_point s).2.1 k + 65 = rd s k
    rw [rd_init_orients s k hk2]
    omega

/-- C11 on "AAAAAAAAAAAADDDDDDDD", the position after one quarter turn of
face 0. -/
theorem print_cube_point_round_trip_witness :
    (valid_cube_point_chars turned_point = true ∧ (init_cube_point turned_point).1 = true) ∧
    print_cube_point (init_cube_point turned_point).2.1 = turned_point :=
  ⟨⟨by decide, by decide⟩, print_cube_point_round_trip turned_point (by decide) (by decide)⟩

/-- C12. Position-string validation: `valid_cube_point_chars(arg)` returns
true if and only if `arg` has exactly 20 characters and every character is an
uppercase letter `A`..`X` (codes 65..88); any other length or any character
outside that range yields false. -/
theorem valid_cube_point_chars_exactly (arg : List Int) :
    (valid_cube_point_chars arg = true ↔
      arg.length = 20 ∧ ∀ c ∈ arg, 65 ≤ c ∧ c ≤ 65 + 23) ∧
    ((arg.length ≠ 20 ∨ ∃ c ∈ arg, c < 65 ∨ 65 + 23 < c) →
      valid_cube_point_chars arg = false) := by
  have h := valid_cube_point_chars_iff arg
  refine ⟨h, ?_⟩
  intro hbad
  cases hv : valid_cube_point_chars arg with
  | false => rfl
  | true =>
    obtain ⟨hl, hc⟩ := h.mp hv
    rcases hbad with hne | ⟨c, hc2, hlt⟩
    · exact absurd hl hne
    · have := hc c hc2
      omega

/-- C12 on a string of 19 letters `A`: rejected. -/
theorem valid_cube_point_chars_exactly_witness :
    (List.replicate 19 (65 : Int)).length ≠ 20 ∧
    valid_cube_point_chars (List.replicate 19 65) = false :=
  ⟨by decide, (valid_cube_point_chars_exactly (List.replicate 19 65)).2 (Or.inl (by decide))⟩

/-! ## Turn counts -/

theorem reduce_times_facts (n : Int) :
    (-2 ≤ reduce_times n ∧ reduce_times n ≤ 2) ∧ (4 : Int) ∣ (n - reduce_times n) := by
  have hdef := Int.tmod_def n 4
  have h1 := Int.tmod_lt_of_pos n (show (0 : Int) < 4 by decide)
  have hneg : Int.tmod n 4 = -(Int.tmod (-n) 4) := by
    have := Int.tmod_def (-n) 4
    rw [Int.neg_tdiv] at this
    omega
  have h3 := Int.tmod_lt_of_pos (-n) (show (0 : Int) < 4 by decide)
  have h2 : -4 < Int.tmod n 4 := by omega
  constructor
  · unfold reduce_times
    simp only
    split
    · omega
    · split <;> omega
  · unfold reduce_times
    simp only
    split
    · exact ⟨n.tdiv 4 + 1, by omega⟩
    · split
      · exact ⟨n.tdiv 4 - 1, by omega⟩
      · exact ⟨n.tdiv 4, by omega⟩

/-- C14. Turn-count reduction: for every `n`, `reduce_times(n)` lies in
-2..2 and differs from `n` by a multiple of 4; 3 maps to -1, -3 maps to 1,
and the values -2..2 are returned unchanged. -/
theorem reduce_times_range (n : Int) :
    (-2 ≤ reduce_times n ∧ reduce_times n ≤ 2) ∧
    (4 : Int) ∣ (n - reduce_times n) ∧
    reduce_times 3 = -1 ∧ reduce_times (-3) = 1 ∧
    (-2 ≤ n ∧ n ≤ 2 → reduce_times n = n) := by
  obtain ⟨hr, hd⟩ := reduce_times_facts n
  refine ⟨hr, hd, by decide, by decide, ?_⟩
  intro hn
  obtain ⟨h0, h1⟩ := hn
  interval_cases n <;> decide

/-- C14 on the count 7, which reduces to -1. -/
theorem reduce_times_range_witness :
    (-2 ≤ reduce_times 7 ∧ reduce_times 7 ≤ 2) ∧ (4 : Int) ∣ (7 - reduce_times 7) :=
  ⟨(reduce_times_range 7).1, (reduce_times_range 7).2.1⟩

/-! ## The tables built at startup -/

set_option maxRecDepth 100000 in
theorem transformations_order_four :
    ∀ f : Nat, f < 6 → ∀ i : Nat, i < 24 →
      rd (row TRANSFORMATIONS f) (rd (row TRANSFORMATIONS f)
        (rd (row TRANSFORMATIONS f) (rd (row TRANSFORMATIONS f) i))) = i := by
  decide

/-- C15. Generator order 4: in the table left by `init_minicube_orientations`
and `init_minicube_transformations`, for every face `f` in 0..5 and every
orientation `i` in 0..23,
`TRANSFORMATIONS[f][TRANSFORMATIONS[f][TRANSFORMATIONS[f][TRANSFORMATIONS[f][i]]]] = i`. -/
theorem generator_order_four (f i : Int) (hf : 0 ≤ f ∧ f < 6) (hi : 0 ≤ i ∧ i < 24) :
    rd (row TRANSFORMATIONS f) (rd (row TRANSFORMATIONS f)
      (rd (row TRANSFORMATIONS f) (rd (row TRANSFORMATIONS f) i))) = i := by
  obtain ⟨n, rfl⟩ := Int.eq_ofNat_of_zero_le hf.1
  obtain ⟨m, rfl⟩ := Int.eq_ofNat_of_zero_le hi.1
  exact transformations_order_four n (by omega) m (by omega)

/-- C15 on face 1 and orientation 7. -/
theorem generator_order_four_witness :
    (((0 : Int) ≤ 1 ∧ (1 : Int) < 6) ∧ ((0 : Int) ≤ 7 ∧ (7 : Int) < 24)) ∧
    rd (row TRANSFORMATIONS 1) (rd (row TRANSFORMATIONS 1)
      (rd (row TRANSFORMATIONS 1) (rd (row TRANSFORMATIONS 1) 7))) = 7 :=
  ⟨⟨by decide, by decide⟩, generator_order_four 1 7 (by decide) (by decide)⟩

set_option maxRecDepth 100000 in
theorem transformations_opposite :
    ∀ f : Nat, f < 6 → ∀ i : Nat, i < 24 →
      rd (row TRANSFORMATIONS (rd OPPOSITES f)) (rd (row TRANSFORMATIONS f) i) = i ∧
      rd (row TRANSFORMATIONS f) (rd (row TRANSFORMATIONS (rd OPPOSITES f)) i) = i ∧
      rd OPPOSITES (rd OPPOSITES f) = f := by
  decide

/-- C16. Opposite generators are inverses: for every face `f` in 0..5 and
every orientation `i` in 0..23,
`TRANSFORMATIONS[OPPOSITES[f]][TRANSFORMATIONS[f][i]] = i` and
`TRANSFORMATIONS[f][TRANSFORMATIONS[OPPOSITES[f]][i]] = i`, and
`OPPOSITES[OPPOSITES[f]] = f`. -/
theorem opposite_generators_inverse (f i : Int) (hf : 0 ≤ f ∧ f < 6)
    (hi : 0 ≤ i ∧ i < 24) :
    rd (row TRANSFORMATIONS (rd OPPOSITES f)) (rd (row TRANSFORMATIONS f) i) = i ∧
    rd (row TRANSFORMATIONS f) (rd (row TRANSFORMATIONS (rd OPPOSITES f)) i) = i ∧
    rd OPPOSITES (rd OPPOSITES f) = f := by
  obtain ⟨n, rfl⟩ := Int.eq_ofNat_of_zero_le hf.1
  obtain ⟨m, rfl⟩ := Int.eq_ofNat_of_zero_le hi.1
  exact transformations_opposite n (by omega) m (by omega)

/-- C16 on face 2 and orientation 11. -/
theorem opposite_generators_inverse_witness :
    (((0 : Int) ≤ 2 ∧ (2 : Int) < 6) ∧ ((0 : Int) ≤ 11 ∧ (11 : Int) < 24)) ∧
    rd (row TRANSFORMATIONS (rd OPPOSITES 2)) (rd (row TRANSFORMATIONS 2) 11) = 11 :=
  ⟨⟨by decide, by decide⟩, (opposite_generators_inverse 2 11 (by decide) (by decide)).1⟩

set_option maxRecDepth 100000 in
theorem transformations_found :
    ∀ r : Nat, r < 6 → ∀ i : Nat, i < 24 →
      (0 ≤ find_orientation (rotate_minicube r
          (copy_orientation (List.replicate NFACES 0) (row ORIENTATIONS i))) ∧
        find_orientation (rotate_minicube r
          (copy_orientation (List.replicate NFACES 0) (row ORIENTATIONS i))) < 24) ∧
      row ORIENTATIONS (find_orientation (rotate_minicube r
          (copy_orientation (List.replicate NFACES 0) (row ORIENTATIONS i))))
        = rotate_minicube r (copy_orientation (List.replicate NFACES 0) (row ORIENTATIONS i)) ∧
      rd (row TRANSFORMATIONS r) i
        = find_orientation (rotate_minicube r
            (copy_orientation (List.replicate NFACES 0) (row ORIENTATIONS i))) := by
  decide

/-- C17. The orientation group is distinct and closed: the 24 tuples built by
`init_minicube_orientations` are pairwise distinct permutations of the faces
0..5, and for every generator `r` in 0..5 and every orientation `i` in 0..23
the tuple `rotate_minicube(r, copy of ORIENTATIONS[i])` is found by
`find_orientation` (at an index 0..23 whose row is that tuple), so that
`TRANSFORMATIONS[r][i]` is that index and never -1. -/
theorem orientations_distinct_closed :
    (ORIENTATIONS.length = 24 ∧ ORIENTATIONS.Nodup ∧
      ∀ o ∈ ORIENTATIONS, o.Perm [0, 1, 2, 3, 4, 5]) ∧
    ∀ r i : Int, 0 ≤ r ∧ r < 6 → 0 ≤ i ∧ i < 24 →
      (0 ≤ find_orientation (rotate_minicube r
          (copy_orientation (List.replicate NFACES 0) (row ORIENTATIONS i))) ∧
        find_orientation (rotate_minicube r
          (copy_orientation (List.replicate NFACES 0) (row ORIENTATIONS i))) < 24) ∧
      row ORIENTATIONS (find_orientation (rotate_minicube r
          (copy_orientation (List.replicate NFACES 0) (row ORIENTATIONS i))))
        = rotate_minicube r (copy_orientation (List.replicate NFACES 0) (row ORIENTATIONS i)) ∧
      rd (row TRANSFORMATIONS r) i
        = find_orientation (rotate_minicube r
            (copy_orientation (List.replicate NFACES 0) (row ORIENTATIONS i))) ∧
      (0 ≤ rd (row TRANSFORMATIONS r) i ∧ rd (row TRANSFORMATIONS r) i < 24) := by
  refine ⟨by decide, ?_⟩
  intro r i hr hi
  obtain ⟨n, rfl⟩ := Int.eq_ofNat_of_zero_le hr.1
  obtain ⟨m, rfl⟩ := Int.eq_ofNat_of_zero_le hi.1
  obtain ⟨a, b, c⟩ := transformations_found n (by omega) m (by omega)
  exact ⟨a, b, c, by rw [c]; exact a⟩

/-- C17 on generator 3 and orientation 5: the entry of the table is 13. -/
theorem orientations_distinct_closed_witness :
    (((0 : Int) ≤ 3 ∧ (3 : Int) < 6) ∧ ((0 : Int) ≤ 5 ∧ (5 : Int) < 24)) ∧
    (0 ≤ rd (row TRANSFORMATIONS 3) 5 ∧ rd (row TRANSFORMATIONS 3) 5 < 24) :=
  ⟨⟨by decide, by decide⟩, (orientations_distinct_closed.2 3 5 (by decide) (by decide)).2.2.2⟩

set_option maxRecDepth 100000 in
theorem origcolors_positions :
    ∀ p : Nat, p < 20 →
      find_minicube_position (row ORIGCOLORS p) = p ∧
      ∀ q : Nat, q < 20 → q ≠ p →
        same_faces (row ORIGCOLORS p) (row ORIGCOLORS q) = false := by
  decide

/-- C18. Reference table bijection: `init_original_minicube_colors` fills
exactly 20 reference colorings, those of the lattice cells with 2 or 3
coloured faces scanned with x fastest, then y, then z; for every minicube `p`
in 0..19 `find_minicube_position(ORIGCOLORS[p])` returns `p`, and no two
reference colorings have the same coloured and empty faces. -/
theorem reference_table_bijection :
    (ORIGCOLORS = reference_colorings ∧ ORIGCOLORS.length = 20) ∧
    ∀ p : Int, 0 ≤ p ∧ p < 20 →
      find_minicube_position (row ORIGCOLORS p) = p ∧
      ∀ q : Int, 0 ≤ q ∧ q < 20 → q ≠ p →
        same_faces (row ORIGCOLORS p) (row ORIGCOLORS q) = false := by
  refine ⟨by decide, ?_⟩
  intro p hp
  obtain ⟨n, rfl⟩ := Int.eq_ofNat_of_zero_le hp.1
  obtain ⟨a, b⟩ := origcolors_positions n (by omega)
  refine ⟨a, ?_⟩
  intro q hq hne
  obtain ⟨m, rfl⟩ := Int.eq_ofNat_of_zero_le hq.1
  exact b m (by omega) (fun e => hne (by rw [e]))

/-- C18 on minicube 13. -/
theorem reference_table_bijection_witness :
    ((0 : Int) ≤ 13 ∧ (13 : Int) < 20) ∧ find_minicube_position (row ORIGCOLORS 13) = 13 :=
  ⟨by decide, (reference_table_bijection.2 13 (by decide)).1⟩

/-! ## The validation of the color characters -/

theorem strchr_of_mem (s : List Int) (c : Int) (h : c ∈ s) :
    strchr s c = some (s.indexOf c) := by
  induction s with
  | nil => simp at h
  | cons x s ih =>
    unfold strchr
    by_cases hx : x = c
    · subst hx
      simp
    · have hc : c ∈ s := by
        rcases List.mem_cons.mp h with e | e
        · exact absurd e.symm hx
        · exact e
      rw [if_neg hx, ih hc, List.indexOf_cons_ne _ hx]
      rfl

theorem indexOf_getElem_le (l : List Int) :
    ∀ (i : Nat) (h : i < l.length), l.indexOf l[i] ≤ i := by
  induction l with
  | nil => intro i h; simp at h
  | cons x l ih =>
    intro i h
    cases i with
    | zero => simp
    | succ k =>
      have hk : k < l.length := by simpa using h
      by_cases hx : x = l[k]
      · simp [List.indexOf_cons_eq _ hx]
      · simp only [List.getElem_cons_succ]
        rw [List.indexOf_cons_ne _ hx]
        exact Nat.succ_le_succ (ih k hk)

theorem rd_eq_getElem (l : List Int) (i : Nat) (h : i < l.length) : rd l i = l[i] := by
  simp [rd_natCast, List.getD_eq_getElem?_getD, h]

theorem nodup_iff_first_occurrence (l : List Int) :
    l.Nodup ↔ ∀ (i : Nat) (h : i < l.length), ¬ l.indexOf l[i] < i := by
  constructor
  · intro hn i h
    rw [List.indexOf_getElem hn i h]
    omega
  · intro hall
    rw [List.nodup_iff_getElem?_ne_getElem?]
    intro i j hij hj e
    have hi : i < l.length := by omega
    rw [List.getElem?_eq_getElem hi, List.getElem?_eq_getElem hj] at e
    have e2 : l[i] = l[j] := Option.some.inj e
    have h1 := indexOf_getElem_le l i hi
    rw [e2] at h1
    exact hall j hj (by omega)

theorem valid_color_chars_iff (arg : List Int) :
    valid_color_chars arg = true ↔
      arg.length = 6 ∧ arg.Nodup ∧
        ∀ c ∈ arg, isgraph c = true ∧ c ≠ APOS ∧ c ≠ MINUS := by
  have key : ∀ i : Nat, i < arg.length →
      ((!isgraph (rd arg i) || decide (rd arg i = APOS) || decide (rd arg i = MINUS)
        || (match strchr arg (rd arg i) with
            | some p => decide (p < i)
            | none => false)) = true ↔
        ¬ (isgraph (rd arg i) = true ∧ rd arg i ≠ APOS ∧ rd arg i ≠ MINUS ∧
            ¬ arg.indexOf (rd arg i) < i)) := by
    intro i hi
    have hm : rd arg i ∈ arg := rd_mem arg i (Int.ofNat_nonneg i) (by omega)
    rw [strchr_of_mem arg _ hm]
    simp only [Bool.or_eq_true, Bool.not_eq_true', decide_eq_true_eq]
    by_cases h1 : isgraph (rd arg i) = true <;> by_cases h2 : rd arg i = APOS <;>
      by_cases h3 : rd arg i = MINUS <;> by_cases h4 : arg.indexOf (rd arg i) < i <;>
      simp [h1, h2, h3, h4]
  have hany : (List.range arg.length).any (fun (i : Nat) =>
        let c := rd arg i
        !isgraph c || decide (c = APOS) || decide (c = MINUS)
          || (match strchr arg c with
              | some p => decide (p < i)
              | none => false)) = true ↔
      ¬ ∀ i : Nat, i < arg.length →
        (isgraph (rd arg i) = true ∧ rd arg i ≠ APOS ∧ rd arg i ≠ MINUS ∧
            ¬ arg.indexOf (rd arg i) < i) := by
    rw [List.any_eq_true]
    constructor
    · rintro ⟨i, hi, hb⟩ hall
      have hi2 := List.mem_range.mp hi
      exact (key i hi2).mp hb (hall i hi2)
    · intro h
      by_contra hne
      apply h
      intro i hi
      by_contra hb
      exact hne ⟨i, List.mem_range.mpr hi, (key i hi).mpr hb⟩
  have hall : (∀ i : Nat, i < arg.length →
        (isgraph (rd arg i) = true ∧ rd arg i ≠ APOS ∧ rd arg i ≠ MINUS ∧
            ¬ arg.indexOf (rd arg i) < i)) ↔
      (arg.Nodup ∧ ∀ c ∈ arg, isgraph c = true ∧ c ≠ APOS ∧ c ≠ MINUS) := by
    rw [nodup_iff_first_occurrence]
    constructor
    · intro h
      refine ⟨fun i hi => ?_, fun c hc => ?_⟩
      · have := (h i hi).2.2.2
        rwa [rd_eq_getElem arg i hi] at this
      · obtain ⟨k, hk, rfl⟩ := exists_rd_of_mem arg c hc
        exact ⟨(h k hk).1, (h k hk).2.1, (h k hk).2.2.1⟩
    · rintro ⟨hn, hc⟩ i hi
      have hm : rd arg i ∈ arg := rd_mem arg i (Int.ofNat_nonneg i) (by omega)
      obtain ⟨a, b, c⟩ := hc _ hm
      refine ⟨a, b, c, ?_⟩
      rw [rd_eq_getElem arg i hi]
      exact hn i hi
  unfold valid_color_chars
  split
  · rename_i h
    have := hany.mp h
    rw [hall] at this
    constructor
    · intro hf; exact absurd hf (by simp)
    · rintro ⟨_, hn, hc⟩
      exact absurd ⟨hn, hc⟩ this
  · rename_i h
    have h2 : arg.Nodup ∧ ∀ c ∈ arg, isgraph c = true ∧ c ≠ APOS ∧ c ≠ MINUS := by
      rw [← hall]
      by_contra hne
      exact h (hany.mpr hne)
    by_cases hl : arg.length = 6
    · simp [hl, h2.1]
      exact h2.2
    · simp [hl]

/-- C13. Colour-alphabet validation: `valid_color_chars(arg)` returns true if
and only if `arg` has exactly 6 characters, all pairwise distinct, each a
printable character other than the space (`isgraph`), none of them `-` or the
apostrophe; fewer or more than 6 characters, a duplicate, or a forbidden
character yields false. -/
theorem valid_color_chars_exactly (arg : List Int) :
    (valid_color_chars arg = true ↔
      arg.length = 6 ∧ arg.Nodup ∧
        ∀ c ∈ arg, isgraph c = true ∧ c ≠ APOS ∧ c ≠ MINUS) ∧
    ((arg.length ≠ 6 ∨ ¬ arg.Nodup ∨
        ∃ c ∈ arg, isgraph c = false ∨ c = APOS ∨ c = MINUS) →
      valid_color_chars arg = false) := by
  have h := valid_color_chars_iff arg
  refine ⟨h, ?_⟩
  intro hbad
  cases hv : valid_color_chars arg with
  | false => rfl
  | true =>
    obtain ⟨hl, hn, hc⟩ := h.mp hv
    rcases hbad with hne | hnn | ⟨c, hc2, hb⟩
    · exact absurd hl hne
    · exact absurd hn hnn
    · obtain ⟨a, b, d⟩ := hc c hc2
      rcases hb with e | e | e
      · rw [a] at e; exact absurd e (by simp)
      · exact absurd e b
      · exact absurd e d

/-- C13 on "123451", where the character 1 comes twice: rejected. -/
theorem valid_color_chars_exactly_witness :
    ¬ ([49, 50, 51, 52, 53, 49] : List Int).Nodup ∧
    valid_color_chars [49, 50, 51, 52, 53, 49] = false :=
  ⟨by decide,
    (valid_color_chars_exactly [49, 50, 51, 52, 53, 49]).2 (Or.inr (Or.inl (by decide)))⟩

/-! ## Coalesced turns -/

set_option maxRecDepth 100000 in
set_option maxHeartbeats 4000000 in
theorem face_compose_table (face : Int) (hf : 0 ≤ face ∧ face < 6) :
    ∀ a : Nat, a < 5 → ∀ b : Nat, b < 5 →
      (face_permutation face ((b : Int) - 2)).map (rd (face_permutation face ((a : Int) - 2)))
          = face_permutation face (reduce_times (((a : Int) - 2) + ((b : Int) - 2))) ∧
      ∀ o : Nat, o < 24 →
        transform_times (face_transform face ((b : Int) - 2)) ((b : Int) - 2).natAbs
            (transform_times (face_transform face ((a : Int) - 2)) ((a : Int) - 2).natAbs o)
          = transform_times (face_transform face (reduce_times (((a : Int) - 2) + ((b : Int) - 2))))
              (reduce_times (((a : Int) - 2) + ((b : Int) - 2))).natAbs o := by
  obtain ⟨h0, h1⟩ := hf
  interval_cases face <;> decide

set_option maxRecDepth 100000 in
theorem face_half_turn (face : Int) (hf : 0 ≤ face ∧ face < 6) :
    face_permutation face 2 = face_permutation face (-2) ∧
    ∀ o : Nat, o < 24 →
      transform_times (face_transform face 2) 2 o
        = transform_times (face_transform face (-2)) 2 o := by
  obtain ⟨h0, h1⟩ := hf
  interval_cases face <;> decide

theorem face_compose (face r1 r2 r3 : Int) (hf : 0 ≤ face ∧ face < 6)
    (h1 : -2 ≤ r1 ∧ r1 ≤ 2) (h2 : -2 ≤ r2 ∧ r2 ≤ 2) (h3 : -2 ≤ r3 ∧ r3 ≤ 2)
    (hd : (4 : Int) ∣ (r1 + r2 - r3)) :
    (face_permutation face r2).map (rd (face_permutation face r1))
        = face_permutation face r3 ∧
    ∀ o : Nat, o < 24 →
      transform_times (face_transform face r2) r2.natAbs
          (transform_times (face_transform face r1) r1.natAbs o)
        = transform_times (face_transform face r3) r3.natAbs o := by
  obtain ⟨a, ha⟩ := Int.eq_ofNat_of_zero_le (show 0 ≤ r1 + 2 by omega)
  obtain ⟨b, hb⟩ := Int.eq_ofNat_of_zero_le (show 0 ≤ r2 + 2 by omega)
  have e1 : r1 = (a : Int) - 2 := by omega
  have e2 : r2 = (b : Int) - 2 := by omega
  have key := face_compose_table face hf a (by omega) b (by omega)
  rw [← e1, ← e2] at key
  obtain ⟨rr, dr⟩ := reduce_times_facts (r1 + r2)
  obtain ⟨x, hx⟩ := hd
  obtain ⟨y, hy⟩ := dr
  have hcase : reduce_times (r1 + r2) = r3 ∨
      (reduce_times (r1 + r2) = 2 ∧ r3 = -2) ∨ (reduce_times (r1 + r2) = -2 ∧ r3 = 2) := by
    omega
  rcases hcase with e | ⟨e, e3⟩ | ⟨e, e3⟩
  · rw [e] at key
    exact key
  · rw [e] at key
    rw [e3]
    obtain ⟨p, q⟩ := face_half_turn face hf
    refine ⟨key.1.trans p, fun o ho => (key.2 o ho).trans (q o ho)⟩
  · rw [e] at key
    rw [e3]
    obtain ⟨p, q⟩ := face_half_turn face hf
    refine ⟨key.1.trans p.symm, fun o ho => (key.2 o ho).trans (q o ho).symm⟩

theorem acts_unique (face : Int) (sigma : List Int) (tau1 tau2 : Int → Int)
    (co mp : List Int) (s1 s2 : List Int × List Int) (hco : valid_orients co)
    (ht : ∀ o : Nat, o < 24 → tau1 o = tau2 o)
    (h1 : acts face sigma tau1 (co, mp) s1) (h2 : acts face sigma tau2 (co, mp) s2) :
    s1 = s2 := by
  obtain ⟨a1, b1, c1⟩ := h1
  obtain ⟨a2, b2, c2⟩ := h2
  apply Prod.ext
  · apply ext_rd
    · rw [b1, b2]
    · intro k hk
      rw [c1 k, c2 k]
      by_cases hm : (k : Int) ∈ face_pieces face mp
      · have hk2 : k < 20 := by rw [b1] at hk; exact hk
        have hr := hco.2 _ (rd_mem co k (Int.ofNat_nonneg k) (by rw [hco.1]; omega))
        simp only [hm, if_true]
        exact int_cases_lt (fun o => tau1 o = tau2 o) 24 ht _ hr.1 hr.2
      · simp [hm]
  · rw [a1, a2]

/-- Two rotations of one face are the rotation by any count congruent to the
sum of theirs. -/
theorem rotate_cube_face_compose (face r1 r2 r3 : Int) (hf : 0 ≤ face ∧ face < 6)
    (h1 : -2 ≤ r1 ∧ r1 ≤ 2) (h2 : -2 ≤ r2 ∧ r2 ≤ 2) (h3 : -2 ≤ r3 ∧ r3 ≤ 2)
    (hd : (4 : Int) ∣ (r1 + r2 - r3)) (co mp : List Int) (hco : valid_orients co)
    (hmp : is_permutation mp) :
    rotate_cube_face face r2 (rotate_cube_face face r1 co mp).1
        (rotate_cube_face face r1 co mp).2
      = rotate_cube_face face r3 co mp := by
  obtain ⟨e, ht⟩ := face_compose face r1 r2 r3 hf h1 h2 h3 hd
  have h01 := acts_rotate face r1 hf h1 _ _ hco.1 hmp
  obtain ⟨hl1, hp1⟩ := rotate_cube_face_shape face r1 hf h1 _ _ hco.1 hmp
  have h12 := acts_rotate face r2 hf h2 _ _ hl1 hp1
  have h02 := acts_comp face hf _ _ _ _ _ _ _ (face_permutation_preserving face r1 hf h1)
    (face_permutation_preserving face r2 hf h2).2.1 h01 h12
  rw [e] at h02
  have h03 := acts_rotate face r3 hf h3 _ _ hco.1 hmp
  exact acts_unique face _ _ _ co mp _ _ hco ht h02 h03

theorem rotate_cube_faces_nil (s : List Int × List Int) : rotate_cube_faces [] s = s := rfl

theorem rotate_cube_faces_cons (face times : Int) (rest : List (Int × Int))
    (s : List Int × List Int) :
    rotate_cube_faces ((face, times) :: rest) s
      = rotate_cube_faces rest (rotate_cube_face face times s.1 s.2) := rfl

theorem rotate_cube_face_zero (face : Int) (co mp : List Int) :
    rotate_cube_face face 0 co mp = (co, mp) := rfl

/-- C19. Coalescing is sound: on every state whose orientations are in 0..23
and whose `minicubesbypos` is a permutation of 0..19, for every face 0..5 and
all integers `a`, `b`, `rotate_cube_face(f, reduce_times(a))` followed by
`rotate_cube_face(f, reduce_times(b))` leaves the same two arrays as the
single call `rotate_cube_face(f, reduce_times(a + b))`; three clockwise
quarter turns equal one counter-clockwise turn, and `rotate_cube_face(f, 2)`
equals `rotate_cube_face(f, -2)`. -/
theorem coalescing_sound (face a b : Int) (hf : 0 ≤ face ∧ face < 6)
    (currentorients minicubesbypos : List Int)
    (hco : valid_orients currentorients) (hmp : is_permutation minicubesbypos) :
    rotate_cube_face face (reduce_times b)
        (rotate_cube_face face (reduce_times a) currentorients minicubesbypos).1
        (rotate_cube_face face (reduce_times a) currentorients minicubesbypos).2
      = rotate_cube_face face (reduce_times (a + b)) currentorients minicubesbypos ∧
    rotate_cube_faces [(face, 1), (face, 1), (face, 1)] (currentorients, minicubesbypos)
      = rotate_cube_face face (-1) currentorients minicubesbypos ∧
    rotate_cube_face face 2 currentorients minicubesbypos
      = rotate_cube_face face (-2) currentorients minicubesbypos := by
  obtain ⟨ra, da⟩ := reduce_times_facts a
  obtain ⟨rb, db⟩ := reduce_times_facts b
  obtain ⟨rc, dc⟩ := reduce_times_facts (a + b)
  refine ⟨?_, ?_, ?_⟩
  · refine rotate_cube_face_compose face _ _ _ hf ra rb rc ?_ _ _ hco hmp
    obtain ⟨x, hx⟩ := da
    obtain ⟨y, hy⟩ := db
    obtain ⟨z, hz⟩ := dc
    exact ⟨z - x - y, by omega⟩
  · have e1 := rotate_cube_face_compose face 1 1 2 hf (by omega) (by omega) (by omega)
      ⟨0, by norm_num⟩ _ _ hco hmp
    have e2 := rotate_cube_face_compose face 2 1 (-1) hf (by omega) (by omega) (by omega)
      ⟨1, by norm_num⟩ _ _ hco hmp
    rw [rotate_cube_faces_cons, rotate_cube_faces_cons, rotate_cube_faces_cons,
      rotate_cube_faces_nil]
    rw [e1, e2]
  · have e := rotate_cube_face_compose face 2 0 (-2) hf (by omega) (by omega) (by omega)
      ⟨1, by norm_num⟩ _ _ hco hmp
    rw [rotate_cube_face_zero] at e
    exact e

/-- C19 on face 4 of the solved cube with the counts 3 and 7, which reduce to
-1 and -1 while their sum 10 reduces to 2. -/
theorem coalescing_sound_witness :
    (((0 : Int) ≤ 4 ∧ (4 : Int) < 6) ∧ valid_orients solved_orients ∧
      is_permutation identity_positions) ∧
    rotate_cube_face 4 (reduce_times 7)
        (rotate_cube_face 4 (reduce_times 3) solved_orients identity_positions).1
        (rotate_cube_face 4 (reduce_times 3) solved_orients identity_positions).2
      = rotate_cube_face 4 (reduce_times (3 + 7)) solved_orients identity_positions :=
  ⟨⟨by decide, by decide, by decide⟩,
    (coalescing_sound 4 3 7 ⟨by decide, by decide⟩ solved_orients identity_positions
      (by decide) (by decide)).1⟩

/-! ## The faces of the emitted moves -/

/-- C20 fails on the NUL character: with the default alphabet, from the
initial state, the input NUL, line feed, line feed makes the third call of
`process_input_char` return true with `ST.result.face = 6`, which is not a
face 0..5 and has no row in `POSITIONS_BY_FACE`. -/
theorem emitted_face_out_of_range :
    (process_input_char COLOR_CHARS_DEFAULT
      (emitted_moves COLOR_CHARS_DEFAULT (init_input_state ST_static) [0, 10]).1 10).2 = true ∧
    (process_input_char COLOR_CHARS_DEFAULT
      (emitted_moves COLOR_CHARS_DEFAULT (init_input_state ST_static) [0, 10]).1 10).1.result
        = { times := 1, face := 6 } ∧
    ¬ ((0 : Int) ≤ 6 ∧ (6 : Int) < 6) ∧
    row POSITIONS_BY_FACE 6 = [] ∧ row TRANSFORMATIONS 6 = [] := by
  decide

theorem char_to_color_range (CC : List Int) (hl : CC.length = 6) (c : Int) (hc : c ≠ 0) :
    char_to_color CC c = EMPTY_COLOR ∨ (0 ≤ char_to_color CC c ∧ char_to_color CC c < 6) := by
  by_cases hm : c ∈ CC
  · right
    unfold char_to_color
    rw [strchr_of_mem CC c hm]
    have := List.indexOf_lt_length.mpr hm
    simp only
    omega
  · left
    exact (char_to_color_empty_iff CC c).mpr ⟨hm, hc⟩

theorem process_keeps_faces (CC : List Int) (hl : CC.length = 6)
    (ST : rubik_input_state_st) (c : Int) (hc : c ≠ 0)
    (hp : ST.pendingface = EMPTY_COLOR ∨ (0 ≤ ST.pendingface ∧ ST.pendingface < 6))
    (hs : ST.savedface = EMPTY_COLOR ∨ (0 ≤ ST.savedface ∧ ST.savedface < 6)) :
    ((process_input_char CC ST c).1.pendingface = EMPTY_COLOR ∨
      (0 ≤ (process_input_char CC ST c).1.pendingface ∧
        (process_input_char CC ST c).1.pendingface < 6)) ∧
    ((process_input_char CC ST c).1.savedface = EMPTY_COLOR ∨
      (0 ≤ (process_input_char CC ST c).1.savedface ∧
        (process_input_char CC ST c).1.savedface < 6)) ∧
    ((process_input_char CC ST c).2 = true →
      0 ≤ (process_input_char CC ST c).1.result.face ∧
        (process_input_char CC ST c).1.result.face < 6) := by
  have hE : EMPTY_COLOR = -1 := rfl
  have hf := char_to_color_range CC hl c hc
  by_cases hcol : char_to_color CC c = EMPTY_COLOR
  · by_cases h39 : c = 39
    · subst h39
      rw [process_apos CC ST hcol]
      exact ⟨hp, hs, fun h => absurd h (by simp)⟩
    · by_cases h10 : c = 10
      · subst h10
        rw [process_newline CC ST hcol]
        by_cases h1 : ST.pendingface = EMPTY_COLOR
        · by_cases h2 : ST.savedface = EMPTY_COLOR
          · simp [h1, h2]
          · have h3 := hs.resolve_left h2
            simp [h1, h2, h3]
        · have h3 := hp.resolve_left h1
          by_cases h2 : ST.savedface ≠ EMPTY_COLOR ∧ ST.savedface ≠ ST.pendingface
          · have h4 := hs.resolve_left h2.1
            rw [if_pos h1, if_pos h2]
            exact ⟨Or.inl rfl, Or.inr h3, fun _ => h4⟩
          · rw [if_pos h1, if_neg h2]
            exact ⟨Or.inl rfl, Or.inr h3, fun h => absurd h (by simp)⟩
      · rw [process_other CC ST c hcol h39 h10]
        exact ⟨hp, hs, fun h => absurd h (by simp)⟩
  · have hf2 := hf.resolve_left hcol
    rw [process_token CC ST c hcol]
    by_cases h1 : ST.pendingface = EMPTY_COLOR
    · rw [if_neg (by simpa using h1)]
      exact ⟨Or.inr hf2, hs, fun h => absurd h (by simp)⟩
    · have h3 := hp.resolve_left h1
      by_cases h2 : ST.savedface ≠ EMPTY_COLOR ∧ ST.savedface ≠ ST.pendingface
      · have h4 := hs.resolve_left h2.1
        rw [if_pos h1, if_pos h2]
        exact ⟨Or.inr hf2, Or.inr h3, fun _ => h4⟩
      · rw [if_pos h1, if_neg h2]
        exact ⟨Or.inr hf2, Or.inr h3, fun h => absurd h (by simp)⟩

/-- What C20 says holds on every input without the NUL character: with an
alphabet accepted by `valid_color_chars`, every move emitted from the initial
state has a face 0..5. -/
theorem emitted_faces_in_range (CC : List Int) (hCC : valid_color_chars CC = true) :
    ∀ (cs : List Int) (ST : rubik_input_state_st), (0 : Int) ∉ cs →
      (ST.pendingface = EMPTY_COLOR ∨ (0 ≤ ST.pendingface ∧ ST.pendingface < 6)) →
      (ST.savedface = EMPTY_COLOR ∨ (0 ≤ ST.savedface ∧ ST.savedface < 6)) →
      ∀ m ∈ (emitted_moves CC ST cs).2, 0 ≤ m.face ∧ m.face < 6 := by
  have hl := (valid_color_chars_spec CC hCC).1
  intro cs
  induction cs with
  | nil => intro ST _ _ _ m hm; simp [emitted_moves] at hm
  | cons c cs ih =>
    intro ST h0 hp hs m hm
    have hc : c ≠ 0 := fun e => h0 (by rw [e]; exact List.mem_cons_self _ _)
    have h0' : (0 : Int) ∉ cs := fun h => h0 (List.mem_cons_of_mem _ h)
    obtain ⟨a, b, d⟩ := process_keeps_faces CC hl ST c hc hp hs
    rw [emitted_moves_cons] at hm
    by_cases hr : (process_input_char CC ST c).2 = true
    · simp only [hr, if_true, List.mem_cons] at hm
      rcases hm with e | hm
      · rw [e]; exact d hr
      · exact ih _ h0' a b m hm
    · simp only [hr] at hm
      exact ih _ h0' a b m hm

/-- The moves of the input "12-3" and two line feeds have faces 0..5. -/
theorem emitted_faces_in_range_witness :
    (valid_color_chars COLOR_CHARS_DEFAULT = true ∧
      (0 : Int) ∉ [49, 50, 45, 51, 10, 10]) ∧
    ∀ m ∈ (emitted_moves COLOR_CHARS_DEFAULT (init_input_state ST_static)
        [49, 50, 45, 51, 10, 10]).2, 0 ≤ m.face ∧ m.face < 6 :=
  ⟨⟨by decide, by decide⟩,
    emitted_faces_in_range COLOR_CHARS_DEFAULT (by decide) [49, 50, 45, 51, 10, 10]
      (init_input_state ST_static) (by decide) (Or.inl rfl) (Or.inl rfl)⟩

/-- The overflow of the accumulator does not change the turn applied: `main`
passes `reduce_times(ST.result.times)` to `rotate_cube_face`, and the count
kept in 32 bits gives the same two arrays as the count itself. -/
theorem wrapped_count_same_turn (face x : Int) (hf : 0 ≤ face ∧ face < 6)
    (currentorients minicubesbypos : List Int)
    (hco : valid_orients currentorients) (hmp : is_permutation minicubesbypos) :
    rotate_cube_face face (reduce_times (int_wrap x)) currentorients minicubesbypos
      = rotate_cube_face face (reduce_times x) currentorients minicubesbypos := by
  obtain ⟨r1, d1⟩ := reduce_times_facts (int_wrap x)
  obtain ⟨r2, d2⟩ := reduce_times_facts x
  have hd : (4 : Int) ∣ (reduce_times (int_wrap x) + 0 - reduce_times x) := by
    obtain ⟨a, ha⟩ := d1
    obtain ⟨b, hb⟩ := d2
    have hw : ∃ k : Int, int_wrap x = x - 4294967296 * k := by
      unfold int_wrap
      exact ⟨(x + 2147483648) / 4294967296, by omega⟩
    obtain ⟨k, hk⟩ := hw
    exact ⟨b - a - 1073741824 * k, by omega⟩
  have e := rotate_cube_face_compose face _ 0 _ hf r1 (by omega) r2 hd _ _ hco hmp
  rw [rotate_cube_face_zero] at e
  exact e

/-- The turn for a count of 2^31 + 2 on face 3 of the solved cube. -/
theorem wrapped_count_same_turn_witness :
    (((0 : Int) ≤ 3 ∧ (3 : Int) < 6) ∧ valid_orients solved_orients ∧
      is_permutation identity_positions) ∧
    rotate_cube_face 3 (reduce_times (int_wrap 2147483650)) solved_orients identity_positions
      = rotate_cube_face 3 (reduce_times 2147483650) solved_orients identity_positions :=
  ⟨⟨by decide, by decide, by decide⟩,
    wrapped_count_same_turn 3 2147483650 (by decide) solved_orients identity_positions
      (by decide) (by decide)⟩

/-! ## The lookup of positions and the repetition test -/

theorem init_cube_point_loop_length (co : List Int) :
    ∀ (L : List Nat) (mp : List Int), (init_cube_point_loop co L mp).2.length = mp.length := by
  intro L
  induction L with
  | nil => intro mp; rfl
  | cons i L ih =>
    intro mp
    rw [init_cube_point_loop_cons]
    split
    · rfl
    · rw [ih, length_wr]

/-- C21. The position lookup cannot miss on validated input: for every
minicube `p` in 0..19 and every orientation `o` in 0..23,
`find_minicube_position(apply_orientation(ORIGCOLORS[p], ORIENTATIONS[o]))`
is a position 0..19, never -1; so for every string accepted by
`valid_cube_point_chars` each orientation `currentorients[i]` is in 0..23 and
the index `pos` computed for minicube `i` in `init_cube_point` is inside
`minicubesbypos`, which keeps its 20 entries. -/
theorem position_lookup_in_bounds :
    (∀ p o : Int, 0 ≤ p ∧ p < 20 → 0 ≤ o ∧ o < 24 →
      0 ≤ find_minicube_position (apply_orientation (row ORIGCOLORS p) (row ORIENTATIONS o)) ∧
      find_minicube_position (apply_orientation (row ORIGCOLORS p) (row ORIENTATIONS o)) < 20 ∧
      find_minicube_position (apply_orientation (row ORIGCOLORS p) (row ORIENTATIONS o))
        ≠ -1) ∧
    (∀ s : List Int, valid_cube_point_chars s = true →
      (init_cube_point s).2.2.length = 20 ∧
      ∀ i : Nat, i < 20 →
        (0 ≤ rd (init_cube_point s).2.1 i ∧ rd (init_cube_point s).2.1 i < 24) ∧
        0 ≤ find_minicube_position (apply_orientation (row ORIGCOLORS i)
            (row ORIENTATIONS (rd (init_cube_point s).2.1 i))) ∧
        find_minicube_position (apply_orientation (row ORIGCOLORS i)
            (row ORIENTATIONS (rd (init_cube_point s).2.1 i))) < 20) := by
  constructor
  · intro p o hp ho
    obtain ⟨n, rfl⟩ := Int.eq_ofNat_of_zero_le hp.1
    have h := position_of_range n (by omega) o ho
    unfold position_of at h
    exact ⟨h.1, h.2, by omega⟩
  · intro s hs
    have hco := init_orients_valid s hs
    refine ⟨?_, ?_⟩
    · rw [init_cube_point_eq s]
      show (init_cube_point_loop _ _ _).2.length = 20
      rw [init_cube_point_loop_length]
      rfl
    · intro i hi
      have ho := hco.2 _ (rd_mem (init_cube_point s).2.1 i (Int.ofNat_nonneg i)
        (by rw [hco.1]; omega))
      have h := position_of_range i hi _ ho
      unfold position_of at h
      exact ⟨ho, h⟩

/-- C21 on minicube 7 in orientation 19, and on the last minicube of the
position "AAAAAAAAAAAADDDDDDDD". -/
theorem position_lookup_in_bounds_witness :
    ((((0 : Int) ≤ 7 ∧ (7 : Int) < 20) ∧ ((0 : Int) ≤ 19 ∧ (19 : Int) < 24)) ∧
      valid_cube_point_chars turned_point = true) ∧
    find_minicube_position (apply_orientation (row ORIGCOLORS 7) (row ORIENTATIONS 19)) ≠ -1 ∧
    find_minicube_position (apply_orientation (row ORIGCOLORS (19 : Nat))
        (row ORIENTATIONS (rd (init_cube_point turned_point).2.1 (19 : Nat)))) < 20 :=
  ⟨⟨⟨by decide, by decide⟩, by decide⟩,
    (position_lookup_in_bounds.1 7 19 (by decide) (by decide)).2.2,
    ((position_lookup_in_bounds.2 turned_point (by decide)).2 19 (by decide)).2.2⟩

theorem repeat_moves_succ (moves : List (Int × Int)) (n : Nat) (s : List Int × List Int) :
    repeat_moves moves (n + 1) s = repeat_moves moves n (rotate_cube_faces moves s) := rfl

theorem first_return_spec (moves : List (Int × Int)) :
    ∀ (n : Nat) (s : List Int × List Int), first_return moves n s = true →
      repeat_moves moves (n + 1) s = (solved_orients, identity_positions) ∧
      ∀ k : Nat, 0 < k → k ≤ n → (repeat_moves moves k s).1 ≠ solved_orients := by
  intro n
  induction n with
  | zero =>
    intro s h
    refine ⟨?_, fun k h0 h1 => absurd h1 (by omega)⟩
    simpa [first_return, repeat_moves] using h
  | succ n ih =>
    intro s h
    simp only [first_return, Bool.and_eq_true, decide_eq_true_eq] at h
    obtain ⟨a, b⟩ := ih _ h.2
    refine ⟨by rw [repeat_moves_succ]; exact a, ?_⟩
    intro k h0 h1
    obtain ⟨j, rfl⟩ : ∃ j, k = j + 1 := ⟨k - 1, by omega⟩
    rw [repeat_moves_succ]
    by_cases hj : j = 0
    · subst hj
      exact h.1
    · exact b j (by omega) (by omega)

theorem consistent_repeat (moves : List (Int × Int)) (hm : valid_moves moves) :
    ∀ (n : Nat) (s : List Int × List Int), consistent s.1 s.2 →
      consistent (repeat_moves moves n s).1 (repeat_moves moves n s).2 := by
  intro n
  induction n with
  | zero => intro s h; exact h
  | succ n ih =>
    intro s h
    rw [repeat_moves_succ]
    exact ih _ (consistent_rotate_faces moves s hm h)

theorem print_solved (co : List Int) (hl : co.length = 20)
    (h : print_cube_point co = solved_point) : co = solved_orients := by
  apply ext_rd
  · rw [hl]; rfl
  · intro k hk
    have hk2 : k < 20 := by omega
    have h1 : rd (print_cube_point co) k = rd solved_point k := by rw [h]
    unfold print_cube_point NMINICUBES at h1
    rw [rd_map_range 20 (fun (i : Nat) => rd co i + 65) k hk2] at h1
    have h2 : rd solved_point k = 65 :=
      rd_replicate 20 65 k ⟨Int.ofNat_nonneg k, by omega⟩
    have h3 : rd solved_orients k = 0 :=
      rd_replicate 20 0 k ⟨Int.ofNat_nonneg k, by omega⟩
    rw [h3]
    omega

theorem stays_unsolved_spec (moves : List (Int × Int)) :
    ∀ (n : Nat) (s t : List Int × List Int), stays_unsolved moves n s t = true →
      repeat_moves moves n s = t ∧
      ∀ k : Nat, 0 < k → k ≤ n → (repeat_moves moves k s).1 ≠ solved_orients := by
  intro n
  induction n with
  | zero =>
    intro s t h
    refine ⟨?_, fun k h0 h1 => absurd h1 (by omega)⟩
    simpa [stays_unsolved, repeat_moves] using h
  | succ n ih =>
    intro s t h
    simp only [stays_unsolved, Bool.and_eq_true, decide_eq_true_eq] at h
    obtain ⟨a, b⟩ := ih _ _ h.2
    refine ⟨by rw [repeat_moves_succ]; exact a, ?_⟩
    intro k h0 h1
    obtain ⟨j, rfl⟩ : ∃ j, k = j + 1 := ⟨k - 1, by omega⟩
    rw [repeat_moves_succ]
    by_cases hj : j = 0
    · subst hj
      exact h.1
    · exact b j (by omega) (by omega)

theorem repeat_moves_add (moves : List (Int × Int)) :
    ∀ (a b : Nat) (s : List Int × List Int),
      repeat_moves moves (a + b) s = repeat_moves moves b (repeat_moves moves a s) := by
  intro a
  induction a with
  | zero => intro b s; simp [repeat_moves]
  | succ a ih =>
    intro b s
    have e : a + 1 + b = (a + b) + 1 := by omega
    rw [e, repeat_moves_succ, repeat_moves_succ, ih]

set_option maxRecDepth 100000 in
set_option maxHeartbeats 4000000 in
theorem pair_12_chunks :
    ∀ j : Nat, j < 6 →
      stays_unsolved move_pair_12 15 (PAIR_12_CHECKPOINTS.getD j ([], []))
        (PAIR_12_CHECKPOINTS.getD (j + 1) ([], [])) = true := by
  decide

set_option maxRecDepth 100000 in
set_option maxHeartbeats 4000000 in
theorem pair_12_last_chunk :
    first_return move_pair_12 14 (PAIR_12_CHECKPOINTS.getD 6 ([], [])) = true := by
  decide

theorem pair_12_prefix :
    ∀ j : Nat, j ≤ 6 →
      repeat_moves move_pair_12 (15 * j) (solved_orients, identity_positions)
        = PAIR_12_CHECKPOINTS.getD j ([], []) ∧
      ∀ k : Nat, 0 < k → k ≤ 15 * j →
        (repeat_moves move_pair_12 k (solved_orients, identity_positions)).1
          ≠ solved_orients := by
  intro j
  induction j with
  | zero =>
    intro _
    exact ⟨by decide, fun k h0 h1 => absurd h1 (by omega)⟩
  | succ j ih =>
    intro hj
    obtain ⟨a, b⟩ := ih (by omega)
    obtain ⟨c, d⟩ := stays_unsolved_spec move_pair_12 15 _ _ (pair_12_chunks j (by omega))
    have e : 15 * (j + 1) = 15 * j + 15 := by omega
    refine ⟨by rw [e, repeat_moves_add, a]; exact c, ?_⟩
    intro k h0 h1
    by_cases hk : k ≤ 15 * j
    · exact b k h0 hk
    · obtain ⟨m, rfl⟩ : ∃ m, k = 15 * j + m := ⟨k - 15 * j, by omega⟩
      rw [repeat_moves_add, a]
      exact d m (by omega) (by omega)

theorem pair_12_order :
    repeat_moves move_pair_12 105 (solved_orients, identity_positions)
      = (solved_orients, identity_positions) ∧
    ∀ k : Nat, 0 < k → k < 105 →
      (repeat_moves move_pair_12 k (solved_orients, identity_positions)).1
        ≠ solved_orients := by
  obtain ⟨a, b⟩ := pair_12_prefix 6 (by omega)
  obtain ⟨c, d⟩ := first_return_spec move_pair_12 14 _ pair_12_last_chunk
  have e : (105 : Nat) = 15 * 6 + (14 + 1) := by omega
  refine ⟨by rw [e, repeat_moves_add, a]; exact c, ?_⟩
  intro k h0 h1
  by_cases hk : k ≤ 15 * 6
  · exact b k h0 hk
  · obtain ⟨m, rfl⟩ : ∃ m, k = 15 * 6 + m := ⟨k - 15 * 6, by omega⟩
    rw [repeat_moves_add, a]
    exact d m (by omega) (by omega)

/-- C22. The author's repetition test: from the solved state, which
`init_cube_point` builds for "AAAAAAAAAAAAAAAAAAAA", `currentorients` is back
to all `A` and `minicubesbypos` to the identity after 105 repetitions of the
move pair entered as "12" (`rotate_cube_face(0, 1)` then
`rotate_cube_face(1, 1)`), and after no smaller positive number of
repetitions: before, the state is not the solved one and the printed position
is not all `A`. -/
theorem repetition_test :
    init_cube_point solved_point = (true, solved_orients, identity_positions) ∧
    (emitted_moves COLOR_CHARS_DEFAULT (init_input_state ST_static) [49, 50, 10, 10]).2
      = [{ times := 1, face := 0 }, { times := 1, face := 1 }] ∧
    repeat_moves move_pair_12 105 (solved_orients, identity_positions)
      = (solved_orients, identity_positions) ∧
    print_cube_point
        (repeat_moves move_pair_12 105 (solved_orients, identity_positions)).1
      = solved_point ∧
    ∀ k : Nat, 0 < k → k < 105 →
      repeat_moves move_pair_12 k (solved_orients, identity_positions)
        ≠ (solved_orients, identity_positions) ∧
      print_cube_point (repeat_moves move_pair_12 k (solved_orients, identity_positions)).1
        ≠ solved_point := by
  obtain ⟨a, b⟩ := pair_12_order
  refine ⟨by decide, by decide, a, ?_, ?_⟩
  · rw [a]; decide
  · intro k h0 h1
    have hne := b k h0 h1
    have hc := consistent_repeat move_pair_12 (by decide) k
      (solved_orients, identity_positions) (by decide)
    refine ⟨fun e => hne (by rw [e]), fun e => hne (print_solved _ hc.1.1 e)⟩

/-- C22 at 35 repetitions, a divisor of 105: the cube is not solved. -/
theorem repetition_test_witness :
    ((0 : Nat) < 35 ∧ (35 : Nat) < 105) ∧
    repeat_moves move_pair_12 35 (solved_orients, identity_positions)
      ≠ (solved_orients, identity_positions) :=
  ⟨⟨by decide, by decide⟩, (repetition_test.2.2.2.2 35 (by decide) (by decide)).1⟩

end Rubik
